import Mathlib

/-!
# edb: record-to-statement mapping

A shallow embedding of `db.go` (package `edb`): the field normalizer
`camelCaseToUnderscore`, the record decoder `createMappings`, and the
statement text and bound-argument list that `InsertOne`, `UpdateOne`, `Delete`
and `Select` hand to the backing engine, the bulk operations `InsertMany` and
`UpdateMany`, the result materializer of `Select`, and of `config.go` the
key-value store `KvConfig`.

Modelling conventions.

* Go strings are taken as valid UTF-8 and read as Lean `String`s, a rune being a `Char`.
* A Go `map[string]interface{}` is the list of its entries in the order in which the
  `range` statement of the operation visits them; Go leaves that order unspecified, so
  every theorem quantifies over all orders. The index expression `mapping[pk]` is `lookup`.
* `unicode.IsUpper` and `unicode.ToLower` belong to the Go standard library. Their fast
  paths (Latin-1 for `IsUpper`, ASCII for `ToLower`) are written out; the range tables
  they consult above those are a parameter `UnicodeTables`.
* The backing engine is outside the repository. For the table operations it is an arbitrary
  state machine `Engine`; for the config store it is a table of rows with a primary key.
  The document encoding of `encoding/json` is a parameter (`Json`, `JsonArray`, `Codec`).
-/

namespace Edb

/-! ## Values and records -/

/-- A dynamically typed Go value as it occurs in a record or in a result row. -/
inductive Value where
  | null
  | text (s : String)
  | int (n : Int)
  | float (bits : Nat)
  | bool (b : Bool)
  | bytes (b : List Nat)
  deriving DecidableEq, Repr

/-- The entries of a `map[string]interface{}` in iteration order (empty for the nil map). -/
abbrev Mapping := List (String × Value)

/-- Index expression `mapping[pk]`: the value stored under `pk`, the nil interface if none. -/
def Mapping.index (mapping : Mapping) (pk : String) : Value :=
  match mapping.lookup pk with
  | some v => v
  | none => Value.null

/-- The shapes of `record interface{}` that `createMappings` tells apart. An `object` is any
other Go value, given by the outcome of `json.Marshal` on it (`none` when marshalling fails). -/
inductive Record where
  | absent
  | text (doc : String)
  | mapping (m : Mapping)
  | object (encoded : Option String)

/-- The part of `encoding/json` used by the decoder: `json.Unmarshal` of a document into a
`map[string]interface{}` variable, `none` when it reports an error (the variable stays nil). -/
structure Json where
  unmarshalMapping : String → Option Mapping

/-- `createMappings` (db.go 251-265). Errors of `json.Unmarshal` are dropped, leaving the nil
mapping, which ranges over no entries. -/
def createMappings (js : Json) (record : Record) : Mapping :=
  match record with
  | Record.absent => []
  | Record.text doc => (js.unmarshalMapping doc).getD []
  | Record.mapping m => m
  | Record.object encoded => (js.unmarshalMapping (encoded.getD "")).getD []

/-! ## Field normalizer -/

/-- The range tables of package `unicode` that lie behind `IsUpper` and `ToLower`. -/
structure UnicodeTables where
  /-- membership in `unicode.Upper` (category Lu), consulted above Latin-1 -/
  upper : Char → Bool
  /-- `unicode.To(unicode.LowerCase, r)`, consulted above ASCII -/
  lowerCase : Char → Char

/-- Latin-1 fast path of `unicode.IsUpper`: the code points whose property is `pLu`. -/
def latin1Upper (r : Char) : Bool :=
  (0x41 ≤ r.toNat && r.toNat ≤ 0x5A) || (0xC0 ≤ r.toNat && r.toNat ≤ 0xD6) ||
    (0xD8 ≤ r.toNat && r.toNat ≤ 0xDE)

/-- `unicode.IsUpper`. -/
def isUpper (u : UnicodeTables) (r : Char) : Bool :=
  if r.toNat ≤ 0xFF then latin1Upper r else u.upper r

/-- `unicode.ToLower`. -/
def toLower (u : UnicodeTables) (r : Char) : Char :=
  if r.toNat ≤ 0x7F then
    if 0x41 ≤ r.toNat ∧ r.toNat ≤ 0x5A then Char.ofNat (r.toNat + 0x20) else r
  else u.lowerCase r

/-- One iteration of `for i, r := range s` in `camelCaseToUnderscore`; the state is the byte
offset `i` of the rune and the `output` slice. -/
def camelCaseStep (u : UnicodeTables) (st : Nat × List Char) (r : Char) : Nat × List Char :=
  let output :=
    if st.1 = 0 then st.2 ++ [toLower u r]
    else (if isUpper u r then st.2 ++ ['_'] else st.2) ++ [toLower u r]
  (st.1 + r.utf8Size, output)

/-- `camelCaseToUnderscore` (db.go 268-282). -/
def camelCaseToUnderscore (u : UnicodeTables) (s : String) : String :=
  String.mk (s.data.foldl (camelCaseStep u) (0, [])).2

/-- Entries of Go's tables for a few code points: À..Þ (without ×) lower-case by adding 32,
and U+03D2..U+03D4 are upper-case letters (Lu) that have no lower-case mapping. All other
code points are left caseless here. -/
def sampleTables : UnicodeTables where
  upper := fun r => 0x3D2 ≤ r.toNat && r.toNat ≤ 0x3D4
  lowerCase := fun r =>
    if (0xC0 ≤ r.toNat ∧ r.toNat ≤ 0xD6) ∨ (0xD8 ≤ r.toNat ∧ r.toNat ≤ 0xDE) then
      Char.ofNat (r.toNat + 0x20)
    else r

/-! ## Statement builders -/

/-- The fields of `Table` that the statement builders read. -/
structure Table where
  Name : String
  AutoCamelCaseToUnderscore : Bool

/-- What is handed to `Exec` or `Query`: the statement text and the bound arguments. -/
structure Statement where
  qry : String
  vars : List Value
  deriving DecidableEq, Repr

/-- The column name a builder derives from field name `k` (`col` in the source). -/
def Table.column (u : UnicodeTables) (table : Table) (k : String) : String :=
  if table.AutoCamelCaseToUnderscore then camelCaseToUnderscore u k else k

/-- Call `strings.HasPrefix(s, pre)`. -/
def startsWith (s pre : String) : Bool :=
  pre.data.isPrefixOf s.data

/-- Locals of `InsertOne` after its loop. -/
structure InsertLocals where
  cols : List String
  ques : List String
  vars : List Value
  deriving DecidableEq, Repr

/-- Body of `for k, v := range mapping` in `InsertOne` (db.go 114-123). -/
def Table.InsertOne.step (u : UnicodeTables) (table : Table) (st : InsertLocals)
    (kv : String × Value) : InsertLocals :=
  { cols :=
      if table.AutoCamelCaseToUnderscore then st.cols ++ [camelCaseToUnderscore u kv.1]
      else st.cols ++ [kv.1]
    ques := st.ques ++ ["?"]
    vars := st.vars ++ [kv.2] }

/-- Locals `cols`, `ques`, `vars` of `InsertOne` when its loop is done. -/
def Table.InsertOne.locals (u : UnicodeTables) (table : Table) (mapping : Mapping) :
    InsertLocals :=
  mapping.foldl (Table.InsertOne.step u table) ⟨[], [], []⟩

/-- `InsertOne` (db.go 109-127) up to its call of `Exec`: the statement and its arguments. -/
def Table.InsertOne.call (u : UnicodeTables) (js : Json) (table : Table) (record : Record) :
    Statement :=
  let st := Table.InsertOne.locals u table (createMappings js record)
  { qry := "insert into " ++ table.Name ++ " (" ++ ",".intercalate st.cols ++ ") values (" ++
      ",".intercalate st.ques ++ ")"
    vars := st.vars }

/-- Locals of `UpdateOne` after its loop. -/
structure UpdateLocals where
  pairs : List String
  vars : List Value
  deriving DecidableEq, Repr

/-- Body of `for k, v := range mapping` in `UpdateOne` (db.go 135-145). -/
def Table.UpdateOne.step (u : UnicodeTables) (table : Table) (pk : String) (st : UpdateLocals)
    (kv : String × Value) : UpdateLocals :=
  let col := if table.AutoCamelCaseToUnderscore then camelCaseToUnderscore u kv.1 else kv.1
  if col = pk then st
  else { pairs := st.pairs ++ [col ++ "=?"], vars := st.vars ++ [kv.2] }

/-- Locals `pairs`, `vars` of `UpdateOne` when its loop is done. -/
def Table.UpdateOne.locals (u : UnicodeTables) (table : Table) (pk : String)
    (mapping : Mapping) : UpdateLocals :=
  mapping.foldl (Table.UpdateOne.step u table pk) ⟨[], []⟩

/-- `UpdateOne` (db.go 130-150) up to its call of `Exec`. -/
def Table.UpdateOne.call (u : UnicodeTables) (js : Json) (table : Table) (pk : String)
    (record : Record) : Statement :=
  let mapping := createMappings js record
  let st := Table.UpdateOne.locals u table pk mapping
  { qry := "update " ++ table.Name ++ " set " ++ ",".intercalate st.pairs ++ " where " ++ pk ++
      " = ?"
    vars := st.vars ++ [mapping.index pk] }

/-- Locals of `Delete` and of `Select` after the predicate loop. -/
structure PredicateLocals where
  colnames : List String
  scannames : List String
  pairs : List String
  vars : List Value
  deriving DecidableEq, Repr

/-- Body of `for k, v := range mapping` in `Delete` (db.go 159-171). -/
def Table.Delete.step (u : UnicodeTables) (table : Table) (st : PredicateLocals)
    (kv : String × Value) : PredicateLocals :=
  let scannames := st.scannames ++ [kv.1]
  let col := if table.AutoCamelCaseToUnderscore then camelCaseToUnderscore u kv.1 else kv.1
  let colnames := st.colnames ++ [col]
  if kv.2 = Value.null then { st with scannames := scannames, colnames := colnames }
  else
    { scannames := scannames, colnames := colnames, pairs := st.pairs ++ [col ++ "=?"],
      vars := st.vars ++ [kv.2] }

/-- Locals of `Delete` when its loop is done. -/
def Table.Delete.locals (u : UnicodeTables) (table : Table) (mapping : Mapping) :
    PredicateLocals :=
  mapping.foldl (Table.Delete.step u table) ⟨[], [], [], []⟩

/-- `Delete` (db.go 153-179) up to its call of `Exec`. -/
def Table.Delete.call (u : UnicodeTables) (js : Json) (table : Table) (param : Record) :
    Statement :=
  let st := Table.Delete.locals u table (createMappings js param)
  { qry := "delete from " ++ table.Name ++ " where " ++ " and ".intercalate st.pairs
    vars := st.vars }

/-- The `switch v.(type)` of `Select` (db.go 198-208): the fragment appended to `pairs`. -/
def Table.Select.fragment (col : String) (v : Value) : String :=
  match v with
  | Value.text str =>
    if startsWith str "%" || startsWith str "%" then col ++ " like ?" else col ++ "=?"
  | _ => col ++ "=?"

/-- Body of `for k, v := range mapping` in `Select` (db.go 188-210). -/
def Table.Select.step (u : UnicodeTables) (table : Table) (st : PredicateLocals)
    (kv : String × Value) : PredicateLocals :=
  let scannames := st.scannames ++ [kv.1]
  let col := if table.AutoCamelCaseToUnderscore then camelCaseToUnderscore u kv.1 else kv.1
  let colnames := st.colnames ++ [col]
  if kv.2 = Value.null then { st with scannames := scannames, colnames := colnames }
  else
    { scannames := scannames, colnames := colnames,
      pairs := st.pairs ++ [Table.Select.fragment col kv.2], vars := st.vars ++ [kv.2] }

/-- Locals of `Select` when its predicate loop is done. -/
def Table.Select.locals (u : UnicodeTables) (table : Table) (mapping : Mapping) :
    PredicateLocals :=
  mapping.foldl (Table.Select.step u table) ⟨[], [], [], []⟩

/-- `Select` (db.go 182-212) up to its call of `Query`. -/
def Table.Select.call (u : UnicodeTables) (js : Json) (table : Table) (param : Record) :
    Statement :=
  let st := Table.Select.locals u table (createMappings js param)
  { qry := "select * from " ++ table.Name ++ " where " ++ " and ".intercalate st.pairs
    vars := st.vars }

/-- A decoder that accepts no document; the examples below pass mappings directly. -/
def noJson : Json where
  unmarshalMapping := fun _ => none

/-! ## The backing engine and the operations that call it -/

/-- What one call `rows.Scan(valuePtrs...)` does: for each column the value it stores through
the pointer (`none` where it stores nothing), and the error it returns (`none` for nil). -/
structure ScanOutcome where
  written : List (Option Value)
  err : Option String

/-- A `*sql.Rows` as `Select` uses it: the outcome of `rows.Columns()`; for each row that
`rows.Next()` delivers, the outcome of the scan of that row; and the error that made
`rows.Next()` return false, which `rows.Err()` reports (`none` when the result set was read
to its end). -/
structure Rows where
  columns : Except String (List String)
  scans : List ScanOutcome
  Err : Option String

/-- The handle `table.Database.underlay`: `Exec` gives the affected-row count or an error,
`Query` gives rows or an error, and both move the engine from one state to the next. Nothing
is assumed about either function. -/
structure Engine (σ : Type) where
  exec : σ → Statement → Except String Nat × σ
  query : σ → Statement → Except String Rows × σ

/-- `InsertOne` (db.go 109-127): the error it returns (`none` for nil) and the next state of
the engine. -/
def Table.InsertOne {σ : Type} (u : UnicodeTables) (js : Json) (eng : Engine σ) (table : Table)
    (s : σ) (record : Record) : Option String × σ :=
  match eng.exec s (Table.InsertOne.call u js table record) with
  | (Except.ok _, s') => (none, s')
  | (Except.error e, s') => (some e, s')

/-- `UpdateOne` (db.go 130-150): the error it returns and the next state of the engine. -/
def Table.UpdateOne {σ : Type} (u : UnicodeTables) (js : Json) (eng : Engine σ) (table : Table)
    (s : σ) (pk : String) (record : Record) : Option String × σ :=
  match eng.exec s (Table.UpdateOne.call u js table pk record) with
  | (Except.ok _, s') => (none, s')
  | (Except.error e, s') => (some e, s')

/-- `Delete` (db.go 153-179): the count it returns, 0 when `Exec` fails. -/
def Table.Delete {σ : Type} (u : UnicodeTables) (js : Json) (eng : Engine σ) (table : Table)
    (s : σ) (param : Record) : Nat × σ :=
  match eng.exec s (Table.Delete.call u js table param) with
  | (Except.ok count, s') => (count, s')
  | (Except.error _, s') => (0, s')

/-- The shapes of `records interface{}` that `createInterfaceArray` tells apart; an `object`
is any Go value other than nil and a string, given by the outcome of `json.Marshal` on it. -/
inductive Records where
  | absent
  | text (doc : String)
  | object (encoded : Option String)

/-- Call `json.Unmarshal` of a document into a `[]interface{}` variable: the elements, each
one a record for `createMappings`, or `none` when it reports an error (the slice stays nil). -/
structure JsonArray where
  unmarshalArray : String → Option (List Record)

/-- `createInterfaceArray` (db.go 316-331). -/
def createInterfaceArray (ja : JsonArray) (records : Records) : List Record :=
  match records with
  | Records.absent => []
  | Records.text doc => (ja.unmarshalArray doc).getD []
  | Records.object encoded => (ja.unmarshalArray (encoded.getD "")).getD []

/-- Body of `for _, record := range all` in `InsertMany` (db.go 291-296); the state is
`counts` and the state of the engine. -/
def Table.InsertMany.step {σ : Type} (u : UnicodeTables) (js : Json) (eng : Engine σ)
    (table : Table) (st : Nat × σ) (record : Record) : Nat × σ :=
  match Table.InsertOne u js eng table st.2 record with
  | (none, s') => (st.1 + 1, s')
  | (some _, s') => (st.1, s')

/-- `InsertMany` (db.go 285-298): the count it returns and the next state of the engine. -/
def Table.InsertMany {σ : Type} (u : UnicodeTables) (js : Json) (ja : JsonArray)
    (eng : Engine σ) (table : Table) (s : σ) (records : Records) : Nat × σ :=
  let all := createInterfaceArray ja records
  if all.isEmpty then (0, s)
  else all.foldl (Table.InsertMany.step u js eng table) (0, s)

/-- Body of `for _, record := range all` in `UpdateMany` (db.go 307-312). -/
def Table.UpdateMany.step {σ : Type} (u : UnicodeTables) (js : Json) (eng : Engine σ)
    (table : Table) (pk : String) (st : Nat × σ) (record : Record) : Nat × σ :=
  match Table.UpdateOne u js eng table st.2 pk record with
  | (none, s') => (st.1 + 1, s')
  | (some _, s') => (st.1, s')

/-- `UpdateMany` (db.go 301-314): the count it returns and the next state of the engine. -/
def Table.UpdateMany {σ : Type} (u : UnicodeTables) (js : Json) (ja : JsonArray)
    (eng : Engine σ) (table : Table) (s : σ) (pk : String) (records : Records) : Nat × σ :=
  let all := createInterfaceArray ja records
  if all.isEmpty then (0, s)
  else all.foldl (Table.UpdateMany.step u js eng table pk) (0, s)

/-! ## Result materializer -/

/-- The slice `values` after `rows.Scan(valuePtrs...)`, every pointer aiming at its element of
`values`: an element is replaced where the scan stored a value. -/
def Rows.Scan : List Value → List (Option Value) → List Value
  | [], _ => []
  | old :: rest, [] => old :: rest
  | old :: rest, w :: ws => w.getD old :: Rows.Scan rest ws

/-- The conversion `v` of a scanned `val` (db.go 232-239); `str` is the Go conversion
`string(b)` of a byte sequence to text. -/
def Table.Select.coerce (str : List Nat → String) (val : Value) : Value :=
  match val with
  | Value.bytes b => Value.text (str b)
  | other => other

/-- Map assignment `entry[col] = v`: the value under an existing key is replaced, a new key
is added. -/
def Mapping.assign (entry : Mapping) (col : String) (v : Value) : Mapping :=
  if entry.any (fun kv => kv.1 == col) then
    entry.map (fun kv => if kv.1 = col then (col, v) else kv)
  else entry ++ [(col, v)]

/-- The loop `for i, col := range columns` of `Select` (db.go 231-241), from index `i` on. -/
def Table.Select.entryLoop (str : List Nat → String) (values : List Value) :
    Nat → List String → Mapping → Mapping
  | _, [], entry => entry
  | i, col :: rest, entry =>
    Table.Select.entryLoop str values (i + 1) rest
      (entry.assign col (Table.Select.coerce str (values.getD i Value.null)))

/-- The `entry` that `Select` builds for one row from the scanned `values`. -/
def Table.Select.entry (str : List Nat → String) (columns : List String)
    (values : List Value) : Mapping :=
  Table.Select.entryLoop str values 0 columns []

/-- Body of `for rows.Next()` in `Select` (db.go 225-243); the state is `values` and
`tableData`. The error of `rows.Scan` is not looked at. -/
def Table.Select.rowStep (str : List Nat → String) (columns : List String)
    (st : List Value × List Mapping) (scan : ScanOutcome) : List Value × List Mapping :=
  let values := Rows.Scan st.1 scan.written
  (values, st.2 ++ [Table.Select.entry str columns values])

/-- The slice `tableData` of `Select` when the row loop is done. -/
def Table.Select.tableData (str : List Nat → String) (columns : List String)
    (scans : List ScanOutcome) : List Mapping :=
  (scans.foldl (Table.Select.rowStep str columns)
    (List.replicate columns.length Value.null, [])).2

/-- The calls `json.Marshal(tableData)` and `json.Unmarshal(jsonData, arr)`, the latter giving
the destination as it is populated. -/
structure Codec (δ : Type) where
  marshal : List Mapping → Except String String
  unmarshal : String → Except String δ

/-- `Select` (db.go 212-249) from the return of `Query` on: the error returned, or the
destination populated through the document round-trip. The loop `for rows.Next()` ends when
`rows.Next()` returns false, and `rows.Err()` is not called after it. -/
def Table.Select.finish {δ : Type} (str : List Nat → String) (codec : Codec δ)
    (result : Except String Rows) : Except String δ :=
  match result with
  | Except.error err => Except.error err
  | Except.ok rows =>
    match rows.columns with
    | Except.error err => Except.error err
    | Except.ok columns =>
      match codec.marshal (Table.Select.tableData str columns rows.scans) with
      | Except.error err => Except.error err
      | Except.ok jsonData => codec.unmarshal jsonData

/-- `Select` (db.go 182-249). -/
def Table.Select {σ δ : Type} (u : UnicodeTables) (js : Json) (str : List Nat → String)
    (codec : Codec δ) (eng : Engine σ) (table : Table) (s : σ) (param : Record) :
    Except String δ × σ :=
  let r := eng.query s (Table.Select.call u js table param)
  (Table.Select.finish str codec r.1, r.2)

/-! ## Config store -/

/-- `KvConfig` (config.go 5-10) without its database handle. -/
structure KvConfig where
  tableName : String
  keyCol : String
  valueCol : String

/-- `UseConfig` (config.go 12-22). The outcome of its `create table` statement is discarded;
the table is taken to exist with the key column as primary key. -/
def UseConfig (table : String) : KvConfig :=
  { tableName := table, keyCol := "property", valueCol := "value" }

/-- The rows `(key, value)` of the config table. -/
abbrev KvRows := List (String × String)

/-- A model of the backing engine on the config table of `cfg`, a set of rows with the key
column as primary key. `fault` stands for a failure of the engine to run the statement at all.
A delete by key removes the rows of that key; an insert of a key that has a row violates the
primary key and changes nothing, otherwise it adds the row. -/
def KvEngine.Exec (cfg : KvConfig) (fault : Bool) (rows : KvRows) (query : String)
    (args : List Value) : Option String × KvRows :=
  if fault then (some "driver: bad connection", rows)
  else if query = "delete from " ++ cfg.tableName ++ " where " ++ cfg.keyCol ++ "=?" then
    match args with
    | [Value.text key] => (none, rows.filter (fun r => r.1 != key))
    | _ => (some "sql: wrong arguments", rows)
  else if query = "insert into " ++ cfg.tableName ++ "(" ++ cfg.keyCol ++ "," ++ cfg.valueCol ++
      ") values(?,?)" then
    match args with
    | [Value.text key, Value.text value] =>
      if rows.any (fun r => r.1 == key) then (some "duplicate entry for primary key", rows)
      else (none, rows ++ [(key, value)])
    | _ => (some "sql: wrong arguments", rows)
  else (some "syntax error", rows)

/-- The same model for `Query`: a select of the value column by key gives the values of the
rows of that key. -/
def KvEngine.Query (cfg : KvConfig) (fault : Bool) (rows : KvRows) (query : String)
    (args : List Value) : Except String (List String) :=
  if fault then Except.error "driver: bad connection"
  else if query = "select " ++ cfg.valueCol ++ " from " ++ cfg.tableName ++ " where " ++
      cfg.keyCol ++ "=?" then
    match args with
    | [Value.text key] => Except.ok ((rows.filter (fun r => r.1 == key)).map Prod.snd)
    | _ => Except.error "sql: wrong arguments"
  else Except.error "syntax error"

/-- `Get` (config.go 25-40): the value and nil, or the error (with the empty text). -/
def KvConfig.Get (cfg : KvConfig) (fault : Bool) (rows : KvRows) (key : String) :
    Except String String :=
  let query := "select " ++ cfg.valueCol ++ " from " ++ cfg.tableName ++ " where " ++
    cfg.keyCol ++ "=?"
  match KvEngine.Query cfg fault rows query [Value.text key] with
  | Except.error err => Except.error err
  | Except.ok [] => Except.ok ""
  | Except.ok (ret :: _) => Except.ok ret

/-- `Remove` (config.go 54-61): the error it returns and the rows left. -/
def KvConfig.Remove (cfg : KvConfig) (fault : Bool) (rows : KvRows) (key : String) :
    Option String × KvRows :=
  let query := "delete from " ++ cfg.tableName ++ " where " ++ cfg.keyCol ++ "=?"
  KvEngine.Exec cfg fault rows query [Value.text key]

/-- `Set` (config.go 43-51): `Remove`, whose error is dropped, then the insert; `faultRemove`
and `faultInsert` say which of the two statements the engine fails to run. -/
def KvConfig.Set (cfg : KvConfig) (faultRemove faultInsert : Bool) (rows : KvRows)
    (key value : String) : Option String × KvRows :=
  let removed := KvConfig.Remove cfg faultRemove rows key
  let query := "insert into " ++ cfg.tableName ++ "(" ++ cfg.keyCol ++ "," ++ cfg.valueCol ++
    ") values(?,?)"
  KvEngine.Exec cfg faultInsert removed.2 query [Value.text key, Value.text value]

/-! ## Vocabulary of the specification -/

/-- The entries of a record whose value is not null, in iteration order. -/
def nonNull (mapping : Mapping) : Mapping :=
  mapping.filter (fun kv => kv.2 != Value.null)

/-- A value that is text whose first character is the wildcard `%`. -/
def Value.wildcardText : Value → Bool
  | Value.text str => str.data.head? == some '%'
  | _ => false

/-- What the normalizer emits for a character that is not the first one, in the words of the
specification: a single underscore before an upper-case character, then its lower-case form. -/
def lowerPiece (u : UnicodeTables) (r : Char) : List Char :=
  if isUpper u r then ['_', toLower u r] else [toLower u r]

/-- The specification of the normalizer on the characters of a name: the first character is
lower-cased, each later one is replaced by its `lowerPiece`. -/
def underscoreBeforeUpper (u : UnicodeTables) : List Char → List Char
  | [] => []
  | c :: cs => toLower u c :: cs.flatMap (lowerPiece u)

/-- For each position of the normalized name, whether it holds an inserted underscore: the
first character gives one position, every later character one position preceded, when it is
upper-case, by the position of its underscore. -/
def insertedMask (u : UnicodeTables) : List Char → List Bool
  | [] => []
  | _ :: cs => false :: cs.flatMap (fun r => if isUpper u r then [true, false] else [false])

/-- The characters of `out` at the positions where `mask` is `keep`. -/
def pick (keep : Bool) (out : List Char) (mask : List Bool) : List Char :=
  ((out.zip mask).filter (fun p => p.2 == keep)).map Prod.fst

/-- Running the statements one after the other on the engine, each on the state the previous
one left, whatever the previous ones returned: the results in order and the last state. -/
def Engine.execAll {σ : Type} (eng : Engine σ) : σ → List Statement →
    List (Except String Nat) × σ
  | s, [] => ([], s)
  | s, stmt :: rest =>
    ((eng.exec s stmt).1 :: (Engine.execAll eng (eng.exec s stmt).2 rest).1,
      (Engine.execAll eng (eng.exec s stmt).2 rest).2)

/-- A scan that succeeds and stores every value of the row. -/
def ScanOutcome.ofRow (row : List Value) : ScanOutcome :=
  { written := row.map some, err := none }

/-! ## The field normalizer: lemmas -/

theorem foldl_camelCaseStep_pos (u : UnicodeTables) (l : List Char) :
    ∀ (i : Nat) (out : List Char), 0 < i →
      (l.foldl (camelCaseStep u) (i, out)).2 = out ++ l.flatMap (lowerPiece u) := by
  induction l with
  | nil => intro i out _; simp
  | cons r rs ih =>
    intro i out hi
    have hne : i ≠ 0 := Nat.pos_iff_ne_zero.mp hi
    rw [List.foldl_cons]
    have hstep : camelCaseStep u (i, out) r = (i + r.utf8Size, out ++ lowerPiece u r) := by
      unfold camelCaseStep lowerPiece
      by_cases hu : isUpper u r = true <;> simp [hne, hu]
    rw [hstep, ih _ _ (Nat.add_pos_left hi _)]
    simp [List.flatMap_cons, List.append_assoc]

theorem camelCaseToUnderscore_data (u : UnicodeTables) (s : String) :
    (camelCaseToUnderscore u s).data = underscoreBeforeUpper u s.data := by
  unfold camelCaseToUnderscore
  cases hs : s.data with
  | nil => simp [underscoreBeforeUpper]
  | cons c cs =>
    have hstep : camelCaseStep u (0, []) c = (c.utf8Size, [toLower u c]) := by
      simp [camelCaseStep]
    simp only [List.foldl_cons, underscoreBeforeUpper]
    rw [hstep, foldl_camelCaseStep_pos u cs _ _ (Char.utf8Size_pos c)]
    simp

theorem isUpper_underscore (u : UnicodeTables) : isUpper u '_' = false := rfl

theorem toLower_underscore (u : UnicodeTables) : toLower u '_' = '_' := rfl

theorem mem_underscoreBeforeUpper (u : UnicodeTables) (l : List Char) (c : Char)
    (h : c ∈ underscoreBeforeUpper u l) : c = '_' ∨ ∃ r ∈ l, c = toLower u r := by
  cases l with
  | nil => simp [underscoreBeforeUpper] at h
  | cons a as =>
    simp only [underscoreBeforeUpper, List.mem_cons, List.mem_flatMap] at h
    rcases h with h | ⟨r, hr, hc⟩
    · exact Or.inr ⟨a, List.mem_cons_self _ _, h⟩
    · unfold lowerPiece at hc
      split at hc
      · simp only [List.mem_cons, List.mem_singleton, List.not_mem_nil, or_false] at hc
        rcases hc with hc | hc
        · exact Or.inl hc
        · exact Or.inr ⟨r, List.mem_cons_of_mem _ hr, hc⟩
      · simp only [List.mem_singleton] at hc
        exact Or.inr ⟨r, List.mem_cons_of_mem _ hr, hc⟩

theorem underscoreBeforeUpper_fixed (u : UnicodeTables) (l : List Char)
    (h : ∀ c ∈ l, isUpper u c = false ∧ toLower u c = c) : underscoreBeforeUpper u l = l := by
  cases l with
  | nil => rfl
  | cons a as =>
    have htail : ∀ (rs : List Char), (∀ c ∈ rs, isUpper u c = false ∧ toLower u c = c) →
        rs.flatMap (lowerPiece u) = rs := by
      intro rs
      induction rs with
      | nil => intro _; rfl
      | cons r rs ih =>
        intro hrs
        have hr := hrs r (List.mem_cons_self _ _)
        rw [List.flatMap_cons, ih (fun c hc => hrs c (List.mem_cons_of_mem _ hc))]
        simp [lowerPiece, hr.1, hr.2]
    simp only [underscoreBeforeUpper]
    rw [(h a (List.mem_cons_self _ _)).2, htail as (fun c hc => h c (List.mem_cons_of_mem _ hc))]

theorem ascii_lower_stable (u : UnicodeTables) (c : Char) (h : c.toNat ≤ 0x7F) :
    isUpper u (toLower u c) = false ∧ toLower u (toLower u c) = toLower u c := by
  have hc : c = Char.ofNat c.toNat := (Char.ofNat_toNat c).symm
  generalize c.toNat = n at hc h
  subst hc
  interval_cases n <;> exact ⟨rfl, rfl⟩

/-! ## The statement builders: what the loops compute -/

theorem foldl_insertStep (u : UnicodeTables) (table : Table) (mapping : Mapping) :
    ∀ st : InsertLocals, mapping.foldl (Table.InsertOne.step u table) st =
      { cols := st.cols ++ mapping.map (fun kv => table.column u kv.1)
        ques := st.ques ++ List.replicate mapping.length "?"
        vars := st.vars ++ mapping.map Prod.snd } := by
  induction mapping with
  | nil => intro st; simp
  | cons kv rest ih =>
    intro st
    rw [List.foldl_cons, ih]
    cases hauto : table.AutoCamelCaseToUnderscore <;>
      simp [Table.InsertOne.step, Table.column, hauto, List.replicate_succ]

theorem insertOne_locals_eq (u : UnicodeTables) (table : Table) (mapping : Mapping) :
    Table.InsertOne.locals u table mapping =
      { cols := mapping.map (fun kv => table.column u kv.1)
        ques := List.replicate mapping.length "?"
        vars := mapping.map Prod.snd } := by
  simp [Table.InsertOne.locals, foldl_insertStep]

theorem foldl_updateStep (u : UnicodeTables) (table : Table) (pk : String) (mapping : Mapping) :
    ∀ st : UpdateLocals, mapping.foldl (Table.UpdateOne.step u table pk) st =
      { pairs := st.pairs ++
          (mapping.filter (fun kv => table.column u kv.1 != pk)).map
            (fun kv => table.column u kv.1 ++ "=?")
        vars := st.vars ++
          (mapping.filter (fun kv => table.column u kv.1 != pk)).map Prod.snd } := by
  induction mapping with
  | nil => intro st; simp
  | cons kv rest ih =>
    intro st
    rw [List.foldl_cons, ih]
    have hcol : (if table.AutoCamelCaseToUnderscore then camelCaseToUnderscore u kv.1 else kv.1)
        = table.column u kv.1 := rfl
    by_cases hpk : table.column u kv.1 = pk
    · simp [Table.UpdateOne.step, hcol, hpk]
    · simp [Table.UpdateOne.step, hcol, hpk]

theorem updateOne_locals_eq (u : UnicodeTables) (table : Table) (pk : String)
    (mapping : Mapping) :
    Table.UpdateOne.locals u table pk mapping =
      { pairs := (mapping.filter (fun kv => table.column u kv.1 != pk)).map
          (fun kv => table.column u kv.1 ++ "=?")
        vars := (mapping.filter (fun kv => table.column u kv.1 != pk)).map Prod.snd } := by
  simp [Table.UpdateOne.locals, foldl_updateStep]

theorem foldl_deleteStep (u : UnicodeTables) (table : Table) (mapping : Mapping) :
    ∀ st : PredicateLocals, mapping.foldl (Table.Delete.step u table) st =
      { colnames := st.colnames ++ mapping.map (fun kv => table.column u kv.1)
        scannames := st.scannames ++ mapping.map Prod.fst
        pairs := st.pairs ++ (nonNull mapping).map (fun kv => table.column u kv.1 ++ "=?")
        vars := st.vars ++ (nonNull mapping).map Prod.snd } := by
  induction mapping with
  | nil => intro st; simp [nonNull]
  | cons kv rest ih =>
    intro st
    rw [List.foldl_cons, ih]
    have hcol : (if table.AutoCamelCaseToUnderscore then camelCaseToUnderscore u kv.1 else kv.1)
        = table.column u kv.1 := rfl
    by_cases hnull : kv.2 = Value.null
    · simp [Table.Delete.step, hcol, hnull, nonNull]
    · simp [Table.Delete.step, hcol, hnull, nonNull]

theorem delete_locals_eq (u : UnicodeTables) (table : Table) (mapping : Mapping) :
    Table.Delete.locals u table mapping =
      { colnames := mapping.map (fun kv => table.column u kv.1)
        scannames := mapping.map Prod.fst
        pairs := (nonNull mapping).map (fun kv => table.column u kv.1 ++ "=?")
        vars := (nonNull mapping).map Prod.snd } := by
  simp [Table.Delete.locals, foldl_deleteStep]

theorem foldl_selectStep (u : UnicodeTables) (table : Table) (mapping : Mapping) :
    ∀ st : PredicateLocals, mapping.foldl (Table.Select.step u table) st =
      { colnames := st.colnames ++ mapping.map (fun kv => table.column u kv.1)
        scannames := st.scannames ++ mapping.map Prod.fst
        pairs := st.pairs ++
          (nonNull mapping).map (fun kv => Table.Select.fragment (table.column u kv.1) kv.2)
        vars := st.vars ++ (nonNull mapping).map Prod.snd } := by
  induction mapping with
  | nil => intro st; simp [nonNull]
  | cons kv rest ih =>
    intro st
    rw [List.foldl_cons, ih]
    have hcol : (if table.AutoCamelCaseToUnderscore then camelCaseToUnderscore u kv.1 else kv.1)
        = table.column u kv.1 := rfl
    by_cases hnull : kv.2 = Value.null
    · simp [Table.Select.step, hcol, hnull, nonNull]
    · simp [Table.Select.step, hcol, hnull, nonNull]

theorem select_locals_eq (u : UnicodeTables) (table : Table) (mapping : Mapping) :
    Table.Select.locals u table mapping =
      { colnames := mapping.map (fun kv => table.column u kv.1)
        scannames := mapping.map Prod.fst
        pairs := (nonNull mapping).map
          (fun kv => Table.Select.fragment (table.column u kv.1) kv.2)
        vars := (nonNull mapping).map Prod.snd } := by
  simp [Table.Select.locals, foldl_selectStep]

theorem startsWith_percent (str : String) :
    startsWith str "%" = (str.data.head? == some '%') := by
  unfold startsWith
  cases hd : str.data with
  | nil => rfl
  | cons c cs =>
    show (['%'].isPrefixOf (c :: cs)) = _
    simp [List.isPrefixOf, eq_comm]

theorem select_fragment_eq (col : String) (v : Value) :
    Table.Select.fragment col v =
      if v.wildcardText then col ++ " like ?" else col ++ "=?" := by
  cases v <;> simp [Table.Select.fragment, Value.wildcardText, startsWith_percent]

theorem nonNull_eq_nil (mapping : Mapping) (h : ∀ kv ∈ mapping, kv.2 = Value.null) :
    nonNull mapping = [] := by
  unfold nonNull
  rw [List.filter_eq_nil_iff]
  intro kv hkv
  simp [h kv hkv]

theorem delete_call_of_all_null (u : UnicodeTables) (js : Json) (table : Table)
    (param : Record) (h : ∀ kv ∈ createMappings js param, kv.2 = Value.null) :
    Table.Delete.call u js table param = ⟨"delete from " ++ table.Name ++ " where ", []⟩ := by
  simp [Table.Delete.call, delete_locals_eq, nonNull_eq_nil _ h, String.intercalate]

theorem select_call_of_all_null (u : UnicodeTables) (js : Json) (table : Table)
    (param : Record) (h : ∀ kv ∈ createMappings js param, kv.2 = Value.null) :
    Table.Select.call u js table param = ⟨"select * from " ++ table.Name ++ " where ", []⟩ := by
  simp [Table.Select.call, select_locals_eq, nonNull_eq_nil _ h, String.intercalate]

theorem string_append_left_cancel (a b c : String) (h : a ++ b = a ++ c) : b = c := by
  have hd := congrArg String.data h
  rw [String.data_append, String.data_append] at hd
  exact String.ext (List.append_cancel_left hd)

theorem string_append_right_cancel (a b c : String) (h : a ++ c = b ++ c) : a = b := by
  have hd := congrArg String.data h
  rw [String.data_append, String.data_append] at hd
  exact String.ext (List.append_cancel_right hd)

theorem updateOne_key_excluded (u : UnicodeTables) (table : Table) (pk : String)
    (mapping : Mapping) : pk ++ "=?" ∉ (Table.UpdateOne.locals u table pk mapping).pairs := by
  rw [updateOne_locals_eq]
  simp only [List.mem_map, List.mem_filter, not_exists, not_and, and_imp]
  intro kv _ hne heq
  have := string_append_right_cancel _ _ _ heq
  simp [this] at hne

theorem updateOne_last_argument (u : UnicodeTables) (js : Json) (table : Table) (pk : String)
    (record : Record) :
    (Table.UpdateOne.call u js table pk record).vars.getLast? =
      some ((createMappings js record).index pk) := by
  simp [Table.UpdateOne.call]

/-! ## Claims on the statement builders -/

/-- C1, at inputs without any non-null field: an absent record, an empty record and a record
whose only value is null. `Delete` and `Select` still emit the `where` keyword, with an empty
predicate list after it, so the text is not the bare `delete from t` or `select * from t`. -/
theorem no_predicate_keeps_where_keyword :
    Table.Delete.call sampleTables noJson ⟨"t", true⟩ Record.absent
        = ⟨"delete from t where ", []⟩ ∧
    Table.Delete.call sampleTables noJson ⟨"t", true⟩ (Record.mapping [])
        = ⟨"delete from t where ", []⟩ ∧
    Table.Delete.call sampleTables noJson ⟨"t", true⟩ (Record.mapping [("name", Value.null)])
        = ⟨"delete from t where ", []⟩ ∧
    Table.Select.call sampleTables noJson ⟨"t", true⟩ Record.absent
        = ⟨"select * from t where ", []⟩ ∧
    Table.Select.call sampleTables noJson ⟨"t", true⟩ (Record.mapping [("name", Value.null)])
        = ⟨"select * from t where ", []⟩ ∧
    (Table.Delete.call sampleTables noJson ⟨"t", true⟩ Record.absent).qry ≠ "delete from t" ∧
    (Table.Select.call sampleTables noJson ⟨"t", true⟩ Record.absent).qry ≠ "select * from t" := by
  decide

/-- C2, at the record with the fields `UserId` = 7 and `Name` = `x`, with primary key
`user_id` and normalization on: the field `UserId` has column name `user_id` and is left out of the
assignments, but the final bound argument is `mapping["user_id"]`, the nil value, not 7. -/
theorem updateOne_binds_raw_key_lookup :
    Table.column sampleTables ⟨"T", true⟩ "UserId" = "user_id" ∧
    Table.UpdateOne.call sampleTables noJson ⟨"T", true⟩ "user_id"
        (Record.mapping [("UserId", Value.int 7), ("Name", Value.text "x")])
      = ⟨"update T set name=? where user_id = ?", [Value.text "x", Value.null]⟩ := by
  decide

/-- C3: the predicate loops of `Select` and of `Delete` emit one fragment and one bound
argument per non-null field, in the order of those fields; the i-th fragment is the column
name of the i-th non-null field followed by `=?` (for `Select` also ` like ?`), and the i-th
argument is the value of that field. -/
theorem predicate_lists_follow_nonNull_fields (u : UnicodeTables) (table : Table)
    (mapping : Mapping) :
    (nonNull mapping).length = mapping.countP (fun kv => kv.2 != Value.null) ∧
    (Table.Select.locals u table mapping).pairs.length = (nonNull mapping).length ∧
    (Table.Select.locals u table mapping).vars.length = (nonNull mapping).length ∧
    (Table.Delete.locals u table mapping).pairs.length = (nonNull mapping).length ∧
    (Table.Delete.locals u table mapping).vars.length = (nonNull mapping).length ∧
    (∀ i : Nat, (Table.Select.locals u table mapping).pairs[i]? =
      (nonNull mapping)[i]?.map (fun kv => Table.Select.fragment (table.column u kv.1) kv.2)) ∧
    (∀ i : Nat, (Table.Select.locals u table mapping).vars[i]? =
      (nonNull mapping)[i]?.map Prod.snd) ∧
    (∀ i : Nat, (Table.Delete.locals u table mapping).pairs[i]? =
      (nonNull mapping)[i]?.map (fun kv => table.column u kv.1 ++ "=?")) ∧
    (∀ i : Nat, (Table.Delete.locals u table mapping).vars[i]? =
      (nonNull mapping)[i]?.map Prod.snd) ∧
    (∀ (col : String) (v : Value), Table.Select.fragment col v = col ++ "=?" ∨
      Table.Select.fragment col v = col ++ " like ?") := by
  rw [select_locals_eq, delete_locals_eq]
  refine ⟨?_, ?_, ?_, ?_, ?_, ?_, ?_, ?_, ?_, ?_⟩
  · simp [nonNull, List.countP_eq_length_filter]
  · simp
  · simp
  · simp
  · simp
  · intro i; simp
  · intro i; simp
  · intro i; simp
  · intro i; simp
  · intro col v
    rw [select_fragment_eq]
    cases v.wildcardText <;> simp

/-- C4: in `Select` the fragment of a non-null field with column name `c` and value `v` is
`c like ?` when `v` is text whose first character is `%` and `c=?` otherwise, the two being
different texts, and `v` itself is the bound argument; the record whose only field is
`name` = `%smith`, on table `T`, gives `select * from T where name like ?` with the argument `"%smith"`. -/
theorem select_pattern_iff_wildcard_text (u : UnicodeTables) (table : Table)
    (mapping : Mapping) :
    (Table.Select.locals u table mapping).pairs =
      (nonNull mapping).map (fun kv =>
        if kv.2.wildcardText then table.column u kv.1 ++ " like ?"
        else table.column u kv.1 ++ "=?") ∧
    (Table.Select.locals u table mapping).vars = (nonNull mapping).map Prod.snd ∧
    (∀ col : String, col ++ " like ?" ≠ col ++ "=?") ∧
    (∀ (js : Json) (auto : Bool),
      Table.Select.call u js ⟨"T", auto⟩ (Record.mapping [("name", Value.text "%smith")]) =
        ⟨"select * from T where name like ?", [Value.text "%smith"]⟩) := by
  rw [select_locals_eq]
  refine ⟨?_, rfl, ?_, ?_⟩
  · apply List.map_congr_left
    intro kv _
    exact select_fragment_eq _ _
  · intro col h
    have := string_append_left_cancel _ _ _ h
    exact absurd this (by decide)
  · intro js auto
    cases auto <;> rfl

/-- C5, at the record whose only field is `name` = `%smith`: `Delete` emits the equality `name=?` for
the text value that begins with `%`, where `Select` emits `name like ?`. -/
theorem delete_wildcard_text_is_equality :
    Table.Delete.call sampleTables noJson ⟨"T", true⟩
        (Record.mapping [("name", Value.text "%smith")])
      = ⟨"delete from T where name=?", [Value.text "%smith"]⟩ ∧
    Table.Select.call sampleTables noJson ⟨"T", true⟩
        (Record.mapping [("name", Value.text "%smith")])
      = ⟨"select * from T where name like ?", [Value.text "%smith"]⟩ := by
  decide

/-- C6: for a record with n fields `InsertOne` builds
`insert into <table> (c1,...,cn) values (?,...,?)` with n column names, n placeholders and n
bound arguments, the i-th column being the column name of the i-th field and the i-th
argument its value; no field is skipped, whatever its value. -/
theorem insertOne_statement_shape (u : UnicodeTables) (js : Json) (table : Table)
    (record : Record) :
    (Table.InsertOne.locals u table (createMappings js record)).cols.length
      = (createMappings js record).length ∧
    (Table.InsertOne.locals u table (createMappings js record)).ques
      = List.replicate (createMappings js record).length "?" ∧
    (Table.InsertOne.call u js table record).vars.length = (createMappings js record).length ∧
    (∀ i : Nat, (Table.InsertOne.locals u table (createMappings js record)).cols[i]? =
      (createMappings js record)[i]?.map (fun kv => table.column u kv.1)) ∧
    (∀ i : Nat, (Table.InsertOne.call u js table record).vars[i]? =
      (createMappings js record)[i]?.map Prod.snd) ∧
    (Table.InsertOne.call u js table record).qry =
      "insert into " ++ table.Name ++ " (" ++
        ",".intercalate ((createMappings js record).map (fun kv => table.column u kv.1)) ++
        ") values (" ++ ",".intercalate (List.replicate (createMappings js record).length "?") ++
        ")" := by
  simp only [Table.InsertOne.call, insertOne_locals_eq]
  refine ⟨?_, trivial, ?_, ?_, ?_, trivial⟩
  · simp
  · simp
  · intro i; simp
  · intro i; simp

/-! ## Claims on the field normalizer -/

theorem ascii_name_stable (u : UnicodeTables) (s : String) (h : ∀ c ∈ s.data, c.toNat ≤ 0x7F) :
    ∀ c ∈ s.data, isUpper u (toLower u c) = false ∧ toLower u (toLower u c) = toLower u c :=
  fun c hc => ascii_lower_stable u c (h c hc)

theorem pick_append (keep : Bool) (a b : List Char) (m n : List Bool)
    (h : a.length = m.length) : pick keep (a ++ b) (m ++ n) = pick keep a m ++ pick keep b n := by
  simp [pick, List.zip_append h]

theorem length_flatMap_lowerPiece (u : UnicodeTables) (cs : List Char) :
    (cs.flatMap (lowerPiece u)).length = cs.length + cs.countP (isUpper u) := by
  induction cs with
  | nil => rfl
  | cons r rs ih =>
    rw [List.flatMap_cons, List.length_append, ih]
    by_cases hu : isUpper u r = true
    · simp [lowerPiece, hu]; omega
    · simp [lowerPiece, hu]; omega

theorem length_flatMap_maskPiece (u : UnicodeTables) (cs : List Char) :
    (cs.flatMap (fun r => if isUpper u r then [true, false] else [false])).length =
      cs.length + cs.countP (isUpper u) := by
  induction cs with
  | nil => rfl
  | cons r rs ih =>
    rw [List.flatMap_cons, List.length_append, ih]
    by_cases hu : isUpper u r = true
    · simp [hu]; omega
    · simp [hu]; omega

theorem pick_flatMap_lowerPiece (u : UnicodeTables) (cs : List Char) :
    pick true (cs.flatMap (lowerPiece u))
        (cs.flatMap (fun r => if isUpper u r then [true, false] else [false])) =
      List.replicate (cs.countP (isUpper u)) '_' ∧
    pick false (cs.flatMap (lowerPiece u))
        (cs.flatMap (fun r => if isUpper u r then [true, false] else [false])) =
      cs.map (toLower u) := by
  induction cs with
  | nil => simp [pick]
  | cons r rs ih =>
    obtain ⟨h3, h4⟩ := ih
    have hlen : (lowerPiece u r).length =
        (if isUpper u r then [true, false] else [false]).length := by
      unfold lowerPiece; split <;> rfl
    simp only [List.flatMap_cons, List.map_cons]
    rw [pick_append _ _ _ _ _ hlen, pick_append _ _ _ _ _ hlen, h3, h4]
    by_cases hu : isUpper u r = true
    · simp [lowerPiece, hu, pick, List.replicate_succ]
    · simp [lowerPiece, hu, pick]

theorem pick_cons_false (keep : Bool) (c : Char) (out : List Char) (mask : List Bool) :
    pick keep (c :: out) (false :: mask) = pick keep [c] [false] ++ pick keep out mask :=
  pick_append keep [c] out [false] mask rfl

/-- C7, as stated: the code does not return `user_id` for `UserID`. -/
theorem camelCaseToUnderscore_UserID_ne :
    camelCaseToUnderscore sampleTables "UserID" ≠ "user_id" := by
  decide

/-- C7, amended: `camelCaseToUnderscore` applied to `UserID` returns `user_i_d`, an
underscore standing before each of the upper-case letters `I` and `D`. -/
theorem camelCaseToUnderscore_UserID (u : UnicodeTables) :
    camelCaseToUnderscore u "UserID" = "user_i_d" := by
  rfl

/-- C8, as stated: for the name made of `a` and U+03D2, an upper-case letter without
lower-case form, normalizing gives `a_` and U+03D2, and normalizing that gives `a__` and
U+03D2, so normalizing twice differs from normalizing once. -/
theorem camelCaseToUnderscore_not_idempotent :
    camelCaseToUnderscore sampleTables "a\u03D2" = "a_\u03D2" ∧
    camelCaseToUnderscore sampleTables "a_\u03D2" = "a__\u03D2" ∧
    camelCaseToUnderscore sampleTables (camelCaseToUnderscore sampleTables "a\u03D2") ≠
      camelCaseToUnderscore sampleTables "a\u03D2" := by
  decide

/-- C8, amended: for a field name each of whose characters has a lower-case form that is
not upper-case and that lower-casing leaves unchanged (every ASCII name is one), normalizing
twice equals normalizing once. -/
theorem camelCaseToUnderscore_idempotent (u : UnicodeTables) (s : String)
    (h : ∀ c ∈ s.data, isUpper u (toLower u c) = false ∧
      toLower u (toLower u c) = toLower u c) :
    camelCaseToUnderscore u (camelCaseToUnderscore u s) = camelCaseToUnderscore u s := by
  apply String.ext
  rw [camelCaseToUnderscore_data, camelCaseToUnderscore_data]
  apply underscoreBeforeUpper_fixed
  intro c hc
  rcases mem_underscoreBeforeUpper u _ c hc with hc | ⟨r, hr, hc⟩
  · subst hc; exact ⟨rfl, rfl⟩
  · subst hc; exact h r hr

/-- The name `UserID` meets the hypothesis of `camelCaseToUnderscore_idempotent`. -/
theorem camelCaseToUnderscore_idempotent_witness :
    (∀ c ∈ "UserID".data, isUpper sampleTables (toLower sampleTables c) = false ∧
      toLower sampleTables (toLower sampleTables c) = toLower sampleTables c) ∧
    camelCaseToUnderscore sampleTables (camelCaseToUnderscore sampleTables "UserID") =
      camelCaseToUnderscore sampleTables "UserID" :=
  ⟨by decide, camelCaseToUnderscore_idempotent sampleTables "UserID" (by decide)⟩

/-- C9, as stated: the normalized form of the one-letter name U+03D2 is that same letter,
which is upper-case. -/
theorem camelCaseToUnderscore_keeps_upper :
    camelCaseToUnderscore sampleTables "\u03D2" = "\u03D2" ∧
    ∃ c ∈ (camelCaseToUnderscore sampleTables "\u03D2").data,
      isUpper sampleTables c = true := by
  decide

/-- C9, amended: for a field name each of whose characters has a lower-case form that is
not upper-case (every ASCII name is one), the normalized name contains no upper-case
character. -/
theorem camelCaseToUnderscore_no_upper (u : UnicodeTables) (s : String)
    (h : ∀ c ∈ s.data, isUpper u (toLower u c) = false) :
    ∀ c ∈ (camelCaseToUnderscore u s).data, isUpper u c = false := by
  intro c hc
  rw [camelCaseToUnderscore_data] at hc
  rcases mem_underscoreBeforeUpper u _ c hc with hc | ⟨r, hr, hc⟩
  · subst hc; rfl
  · subst hc; exact h r hr

/-- The name `UserID` meets the hypothesis of `camelCaseToUnderscore_no_upper`. -/
theorem camelCaseToUnderscore_no_upper_witness :
    (∀ c ∈ "UserID".data, isUpper sampleTables (toLower sampleTables c) = false) ∧
    ∀ c ∈ (camelCaseToUnderscore sampleTables "UserID").data, isUpper sampleTables c = false :=
  ⟨by decide, camelCaseToUnderscore_no_upper sampleTables "UserID" (by decide)⟩

/-- C10: the normalized name is the first character lower-cased followed, for each later
character, by one underscore if it is upper-case and then its lower-case form. It has as many
characters as the name plus the number of upper-case characters after the first; the positions
marked as inserted hold that many underscores, and the other positions spell the name
lower-cased. Runs of upper-case letters are not collapsed: `ID` gives `i_d`. -/
theorem camelCaseToUnderscore_one_underscore_per_upper (u : UnicodeTables) (s : String) :
    (camelCaseToUnderscore u s).data = underscoreBeforeUpper u s.data ∧
    (camelCaseToUnderscore u s).length = s.length + s.data.tail.countP (isUpper u) ∧
    (insertedMask u s.data).length = (camelCaseToUnderscore u s).length ∧
    pick true (camelCaseToUnderscore u s).data (insertedMask u s.data) =
      List.replicate (s.data.tail.countP (isUpper u)) '_' ∧
    pick false (camelCaseToUnderscore u s).data (insertedMask u s.data) =
      s.data.map (toLower u) ∧
    camelCaseToUnderscore u "ID" = "i_d" := by
  refine ⟨camelCaseToUnderscore_data u s, ?_, ?_, ?_, ?_, rfl⟩
  · show (camelCaseToUnderscore u s).data.length = s.data.length + _
    rw [camelCaseToUnderscore_data]
    cases s.data with
    | nil => rfl
    | cons c cs =>
      simp only [underscoreBeforeUpper, List.tail_cons, List.length_cons,
        length_flatMap_lowerPiece]
      omega
  · show _ = (camelCaseToUnderscore u s).data.length
    rw [camelCaseToUnderscore_data]
    cases s.data with
    | nil => rfl
    | cons c cs =>
      simp only [underscoreBeforeUpper, insertedMask, List.length_cons,
        length_flatMap_lowerPiece, length_flatMap_maskPiece]
  · rw [camelCaseToUnderscore_data]
    cases s.data with
    | nil => rfl
    | cons c cs =>
      simp only [underscoreBeforeUpper, insertedMask, List.tail_cons]
      rw [pick_cons_false, (pick_flatMap_lowerPiece u cs).1]
      simp [pick]
  · rw [camelCaseToUnderscore_data]
    cases s.data with
    | nil => rfl
    | cons c cs =>
      simp only [underscoreBeforeUpper, insertedMask, List.map_cons]
      rw [pick_cons_false, (pick_flatMap_lowerPiece u cs).2]
      simp [pick]

/-! ## Claims on normalization off, on `UpdateOne` and on the statement text -/

/-- C11: on a table whose `AutoCamelCaseToUnderscore` flag is false, the column names that
`InsertOne`, `UpdateOne`, `Delete` and `Select` emit are the field names of the record,
unchanged: in the column list of the insert, in the assignments of the update and in the
predicates and column lists of delete and select. -/
theorem columns_are_field_names_without_normalization (u : UnicodeTables) (name pk : String)
    (mapping : Mapping) :
    (∀ k : String, Table.column u ⟨name, false⟩ k = k) ∧
    (Table.InsertOne.locals u ⟨name, false⟩ mapping).cols = mapping.map Prod.fst ∧
    (Table.UpdateOne.locals u ⟨name, false⟩ pk mapping).pairs =
      (mapping.filter (fun kv => kv.1 != pk)).map (fun kv => kv.1 ++ "=?") ∧
    (Table.Delete.locals u ⟨name, false⟩ mapping).colnames = mapping.map Prod.fst ∧
    (Table.Delete.locals u ⟨name, false⟩ mapping).pairs =
      (nonNull mapping).map (fun kv => kv.1 ++ "=?") ∧
    (Table.Select.locals u ⟨name, false⟩ mapping).colnames = mapping.map Prod.fst ∧
    (Table.Select.locals u ⟨name, false⟩ mapping).pairs =
      (nonNull mapping).map (fun kv => Table.Select.fragment kv.1 kv.2) := by
  have hcol : ∀ k : String, Table.column u ⟨name, false⟩ k = k := fun _ => rfl
  rw [insertOne_locals_eq, updateOne_locals_eq, delete_locals_eq, select_locals_eq]
  simp [hcol]

/-- C12: the statement of `UpdateOne` is `update <table> set <assignments> where <pk> = ?`
with `pk` copied as the caller gave it; the assignments are `<column>=?` for the fields whose
column name differs from `pk`, the column name being the normalized field name when
normalization is on; and there is one bound argument more than there are assignments. -/
theorem updateOne_statement_shape (u : UnicodeTables) (js : Json) (table : Table) (pk : String)
    (record : Record) :
    (Table.UpdateOne.call u js table pk record).qry =
      "update " ++ table.Name ++ " set " ++
        ",".intercalate (Table.UpdateOne.locals u table pk (createMappings js record)).pairs ++
        " where " ++ pk ++ " = ?" ∧
    (Table.UpdateOne.locals u table pk (createMappings js record)).pairs =
      ((createMappings js record).filter (fun kv => table.column u kv.1 != pk)).map
        (fun kv => table.column u kv.1 ++ "=?") ∧
    (∀ (name k : String), Table.column u ⟨name, true⟩ k = camelCaseToUnderscore u k) ∧
    (Table.UpdateOne.call u js table pk record).vars.length =
      (Table.UpdateOne.locals u table pk (createMappings js record)).pairs.length + 1 := by
  refine ⟨rfl, ?_, fun _ _ => rfl, ?_⟩
  · rw [updateOne_locals_eq]
  · simp [Table.UpdateOne.call, updateOne_locals_eq]

/-- C18: for an absent record `createMappings` returns no entries, and for a record that is
already a key-value mapping it returns that mapping itself, the same keys with the same
values; the keys are not turned into column names. -/
theorem createMappings_absent_or_mapping (js : Json) (m : Mapping) :
    createMappings js Record.absent = [] ∧ createMappings js (Record.mapping m) = m :=
  ⟨rfl, rfl⟩

theorem map_pair_eq {α β γ : Type} (f : α → β) (g : α → γ) :
    ∀ l₁ l₂ : List α, l₁.map f = l₂.map f → l₁.map g = l₂.map g →
      l₁.map (fun a => (f a, g a)) = l₂.map (fun a => (f a, g a)) := by
  intro l₁
  induction l₁ with
  | nil =>
    intro l₂ h _
    cases l₂ with
    | nil => rfl
    | cons b bs => simp at h
  | cons a as ih =>
    intro l₂ hf hg
    cases l₂ with
    | nil => simp at hf
    | cons b bs =>
      simp only [List.map_cons, List.cons.injEq] at hf hg ⊢
      exact ⟨Prod.ext hf.1 hg.1, ih bs hf.2 hg.2⟩

theorem filter_map_through {α β γ : Type} (f : α → β) (p : β → Bool) (g : β → γ)
    (l₁ l₂ : List α) (h : l₁.map f = l₂.map f) :
    (l₁.filter (fun a => p (f a))).map (fun a => g (f a)) =
      (l₂.filter (fun a => p (f a))).map (fun a => g (f a)) := by
  have key : ∀ l : List α, (l.filter (fun a => p (f a))).map (fun a => g (f a)) =
      ((l.map f).filter p).map g := by
    intro l
    rw [List.filter_map, List.map_map]
    rfl
  rw [key, key, h]

/-- C19: two records with the same field names in the same order give the same text for
`InsertOne` and for `UpdateOne`; if moreover their null values stand at the same positions
they give the same text for `Delete`; and if also their text values beginning with `%` stand
at the same positions they give the same text for `Select`. The other values have no
influence on the text. -/
theorem statement_text_ignores_values (u : UnicodeTables) (js : Json) (table : Table)
    (pk : String) (r₁ r₂ : Record)
    (hkeys : (createMappings js r₁).map Prod.fst = (createMappings js r₂).map Prod.fst) :
    (Table.InsertOne.call u js table r₁).qry = (Table.InsertOne.call u js table r₂).qry ∧
    (Table.UpdateOne.call u js table pk r₁).qry = (Table.UpdateOne.call u js table pk r₂).qry ∧
    ((createMappings js r₁).map (fun kv => kv.2 != Value.null) =
        (createMappings js r₂).map (fun kv => kv.2 != Value.null) →
      (Table.Delete.call u js table r₁).qry = (Table.Delete.call u js table r₂).qry) ∧
    ((createMappings js r₁).map (fun kv => kv.2 != Value.null) =
        (createMappings js r₂).map (fun kv => kv.2 != Value.null) →
      (createMappings js r₁).map (fun kv => kv.2.wildcardText) =
        (createMappings js r₂).map (fun kv => kv.2.wildcardText) →
      (Table.Select.call u js table r₁).qry = (Table.Select.call u js table r₂).qry) := by
  have hlen : (createMappings js r₁).length = (createMappings js r₂).length := by
    have := congrArg List.length hkeys
    simpa using this
  refine ⟨?_, ?_, ?_, ?_⟩
  · have h := filter_map_through Prod.fst (fun _ => true) (fun k => table.column u k)
      _ _ hkeys
    simp only [List.filter_true] at h
    simp only [Table.InsertOne.call, insertOne_locals_eq, h, hlen]
  · have h := filter_map_through Prod.fst (fun k => table.column u k != pk)
      (fun k => table.column u k ++ "=?") _ _ hkeys
    simp only [Table.UpdateOne.call, updateOne_locals_eq, h]
  · intro hnull
    have hpair := map_pair_eq Prod.fst (fun kv : String × Value => kv.2 != Value.null)
      _ _ hkeys hnull
    have h := filter_map_through
      (fun kv : String × Value => (kv.1, kv.2 != Value.null))
      (fun q => q.2) (fun q => table.column u q.1 ++ "=?") _ _ hpair
    simp only [Table.Delete.call, delete_locals_eq, nonNull]
    simp only at h
    rw [h]
  · intro hnull hwild
    have hpair := map_pair_eq Prod.fst (fun kv : String × Value => kv.2 != Value.null)
      _ _ hkeys hnull
    have htriple := map_pair_eq (fun kv : String × Value => (kv.1, kv.2 != Value.null))
      (fun kv : String × Value => kv.2.wildcardText) _ _ hpair hwild
    have h := filter_map_through
      (fun kv : String × Value => ((kv.1, kv.2 != Value.null), kv.2.wildcardText))
      (fun q => q.1.2)
      (fun q => if q.2 then table.column u q.1.1 ++ " like ?" else table.column u q.1.1 ++ "=?")
      _ _ htriple
    simp only [Table.Select.call, select_locals_eq, nonNull, select_fragment_eq]
    simp only at h
    rw [h]

/-- The records with fields `id`, `note`, `name` holding 1, null, `%a` and 2, null, `%b`
meet the hypotheses of `statement_text_ignores_values`. -/
theorem statement_text_ignores_values_witness :
    (Table.InsertOne.call sampleTables noJson ⟨"T", true⟩
        (Record.mapping [("id", Value.int 1), ("note", Value.null), ("name", Value.text "%a")])).qry =
      (Table.InsertOne.call sampleTables noJson ⟨"T", true⟩
        (Record.mapping [("id", Value.int 2), ("note", Value.null), ("name", Value.text "%b")])).qry ∧
    (Table.Select.call sampleTables noJson ⟨"T", true⟩
        (Record.mapping [("id", Value.int 1), ("note", Value.null), ("name", Value.text "%a")])).qry =
      (Table.Select.call sampleTables noJson ⟨"T", true⟩
        (Record.mapping [("id", Value.int 2), ("note", Value.null), ("name", Value.text "%b")])).qry :=
  have h := statement_text_ignores_values sampleTables noJson ⟨"T", true⟩ "id"
    (Record.mapping [("id", Value.int 1), ("note", Value.null), ("name", Value.text "%a")])
    (Record.mapping [("id", Value.int 2), ("note", Value.null), ("name", Value.text "%b")])
    (by decide)
  ⟨h.1, h.2.2.2 (by decide) (by decide)⟩

theorem two_le_count_map_of_mem {α β : Type} [DecidableEq β] (f : α → β) (l : List α)
    (a b : α) (hab : a ≠ b) (ha : a ∈ l) (hb : b ∈ l) (hf : f a = f b) :
    2 ≤ (l.map f).count (f a) := by
  obtain ⟨pre, post, hl⟩ := List.append_of_mem ha
  subst hl
  have hb' : b ∈ pre ∨ b ∈ post := by
    rcases List.mem_append.mp hb with h | h
    · exact Or.inl h
    · rcases List.mem_cons.mp h with h | h
      · exact absurd h.symm hab
      · exact Or.inr h
  simp only [List.map_append, List.map_cons, List.count_append, List.count_cons_self]
  rcases hb' with h | h
  · have : 0 < (pre.map f).count (f a) :=
      List.count_pos_iff.mpr (hf ▸ List.mem_map_of_mem f h)
    omega
  · have : 0 < (post.map f).count (f a) :=
      List.count_pos_iff.mpr (hf ▸ List.mem_map_of_mem f h)
    omega

/-- C20: field normalization is not injective, `userId` and `user_id` being distinct names
with the same normalized form `user_id`; and whenever a record holds two distinct fields
with the same normalized form, `InsertOne` with normalization on names that column at least
twice in its column list. -/
theorem insertOne_repeats_column_of_colliding_fields (u : UnicodeTables) (js : Json)
    (table : Table) (record : Record) (k₁ k₂ : String) (v₁ v₂ : Value)
    (hauto : table.AutoCamelCaseToUnderscore = true) (hne : k₁ ≠ k₂)
    (hcol : camelCaseToUnderscore u k₁ = camelCaseToUnderscore u k₂)
    (h₁ : (k₁, v₁) ∈ createMappings js record) (h₂ : (k₂, v₂) ∈ createMappings js record) :
    2 ≤ (Table.InsertOne.locals u table (createMappings js record)).cols.count
      (camelCaseToUnderscore u k₁) ∧
    "userId" ≠ "user_id" ∧
    camelCaseToUnderscore u "userId" = "user_id" ∧
    camelCaseToUnderscore u "user_id" = "user_id" := by
  refine ⟨?_, by decide, rfl, rfl⟩
  rw [insertOne_locals_eq]
  have hc : ∀ k : String, table.column u k = camelCaseToUnderscore u k := by
    intro k; simp [Table.column, hauto]
  simp only [hc]
  have hpair : (k₁, v₁) ≠ (k₂, v₂) := fun h => hne (congrArg Prod.fst h)
  exact two_le_count_map_of_mem (fun kv : String × Value => camelCaseToUnderscore u kv.1)
    _ (k₁, v₁) (k₂, v₂) hpair h₁ h₂ hcol

/-- The record with the fields `userId` = 1 and `user_id` = 2 gives the statement
`insert into T (user_id,user_id) values (?,?)`. -/
theorem insertOne_repeats_column_witness :
    Table.InsertOne.call sampleTables noJson ⟨"T", true⟩
        (Record.mapping [("userId", Value.int 1), ("user_id", Value.int 2)])
      = ⟨"insert into T (user_id,user_id) values (?,?)", [Value.int 1, Value.int 2]⟩ ∧
    2 ≤ (Table.InsertOne.locals sampleTables ⟨"T", true⟩
        (createMappings noJson
          (Record.mapping [("userId", Value.int 1), ("user_id", Value.int 2)]))).cols.count
      (camelCaseToUnderscore sampleTables "userId") :=
  ⟨by decide,
    (insertOne_repeats_column_of_colliding_fields sampleTables noJson ⟨"T", true⟩
      (Record.mapping [("userId", Value.int 1), ("user_id", Value.int 2)])
      "userId" "user_id" (Value.int 1) (Value.int 2) rfl (by decide) (by decide)
      (by decide) (by decide)).1⟩

/-! ## Claims on the bulk operations -/

theorem execAll_length {σ : Type} (eng : Engine σ) (stmts : List Statement) :
    ∀ s : σ, (Engine.execAll eng s stmts).1.length = stmts.length := by
  induction stmts with
  | nil => intro s; rfl
  | cons stmt rest ih => intro s; simp [Engine.execAll, ih]

theorem foldl_insertManyStep {σ : Type} (u : UnicodeTables) (js : Json) (eng : Engine σ)
    (table : Table) (all : List Record) :
    ∀ (counts : Nat) (s : σ),
      all.foldl (Table.InsertMany.step u js eng table) (counts, s) =
        (counts +
            (Engine.execAll eng s (all.map (Table.InsertOne.call u js table))).1.countP
              Except.toBool,
          (Engine.execAll eng s (all.map (Table.InsertOne.call u js table))).2) := by
  induction all with
  | nil => intro counts s; rfl
  | cons record rest ih =>
    intro counts s
    rw [List.foldl_cons]
    have hstep : Table.InsertMany.step u js eng table (counts, s) record =
        (counts + (if (eng.exec s (Table.InsertOne.call u js table record)).1.toBool
            then 1 else 0),
          (eng.exec s (Table.InsertOne.call u js table record)).2) := by
      unfold Table.InsertMany.step Table.InsertOne
      rcases hexec : eng.exec s (Table.InsertOne.call u js table record) with ⟨res, s'⟩
      cases res <;> simp [Except.toBool]
    rw [hstep, ih]
    simp only [List.map_cons, Engine.execAll, List.countP_cons]
    refine Prod.ext ?_ rfl
    simp only
    omega

theorem foldl_updateManyStep {σ : Type} (u : UnicodeTables) (js : Json) (eng : Engine σ)
    (table : Table) (pk : String) (all : List Record) :
    ∀ (counts : Nat) (s : σ),
      all.foldl (Table.UpdateMany.step u js eng table pk) (counts, s) =
        (counts +
            (Engine.execAll eng s (all.map (Table.UpdateOne.call u js table pk))).1.countP
              Except.toBool,
          (Engine.execAll eng s (all.map (Table.UpdateOne.call u js table pk))).2) := by
  induction all with
  | nil => intro counts s; rfl
  | cons record rest ih =>
    intro counts s
    rw [List.foldl_cons]
    have hstep : Table.UpdateMany.step u js eng table pk (counts, s) record =
        (counts + (if (eng.exec s (Table.UpdateOne.call u js table pk record)).1.toBool
            then 1 else 0),
          (eng.exec s (Table.UpdateOne.call u js table pk record)).2) := by
      unfold Table.UpdateMany.step Table.UpdateOne
      rcases hexec : eng.exec s (Table.UpdateOne.call u js table pk record) with ⟨res, s'⟩
      cases res <;> simp [Except.toBool]
    rw [hstep, ih]
    simp only [List.map_cons, Engine.execAll, List.countP_cons]
    refine Prod.ext ?_ rfl
    simp only
    omega

theorem insertMany_eq {σ : Type} (u : UnicodeTables) (js : Json) (ja : JsonArray)
    (eng : Engine σ) (table : Table) (s : σ) (records : Records) :
    Table.InsertMany u js ja eng table s records =
      ((Engine.execAll eng s
          ((createInterfaceArray ja records).map (Table.InsertOne.call u js table))).1.countP
          Except.toBool,
        (Engine.execAll eng s
          ((createInterfaceArray ja records).map (Table.InsertOne.call u js table))).2) := by
  unfold Table.InsertMany
  cases hall : createInterfaceArray ja records with
  | nil => rfl
  | cons r rs =>
    simp only [List.isEmpty_cons, Bool.false_eq_true, if_false]
    rw [foldl_insertManyStep]
    simp

theorem updateMany_eq {σ : Type} (u : UnicodeTables) (js : Json) (ja : JsonArray)
    (eng : Engine σ) (table : Table) (s : σ) (pk : String) (records : Records) :
    Table.UpdateMany u js ja eng table s pk records =
      ((Engine.execAll eng s
          ((createInterfaceArray ja records).map (Table.UpdateOne.call u js table pk))).1.countP
          Except.toBool,
        (Engine.execAll eng s
          ((createInterfaceArray ja records).map (Table.UpdateOne.call u js table pk))).2) := by
  unfold Table.UpdateMany
  cases hall : createInterfaceArray ja records with
  | nil => rfl
  | cons r rs =>
    simp only [List.isEmpty_cons, Bool.false_eq_true, if_false]
    rw [foldl_updateManyStep]
    simp

theorem countP_lt_length_iff_any {α : Type} (p : α → Bool) (l : List α) :
    l.countP p < l.length ↔ l.any (fun a => !p a) = true := by
  induction l with
  | nil => simp
  | cons a as ih =>
    have hle := List.countP_le_length p (l := as)
    by_cases ha : p a = true
    · simp only [List.countP_cons, ha, if_true, List.length_cons, List.any_cons,
        Bool.not_true, Bool.false_or]
      rw [← ih]
      omega
    · simp only [Bool.not_eq_true] at ha
      simp [List.countP_cons, ha]
      omega

/-- C13: for every engine and every collection, `InsertMany` runs the statement of
`InsertOne` for each of the K decoded records, in order, each on the state the previous one
left whether it failed or not, and returns the number of those that succeeded. So the count
is at most K, it is K exactly when every item succeeded and less than K exactly when some
item failed. `UpdateMany` does the same with the statements of `UpdateOne`. -/
theorem bulk_operations_count_successes {σ : Type} (u : UnicodeTables) (js : Json)
    (ja : JsonArray) (eng : Engine σ) (table : Table) (s : σ) (pk : String)
    (records : Records) :
    Table.InsertMany u js ja eng table s records =
      ((Engine.execAll eng s
          ((createInterfaceArray ja records).map (Table.InsertOne.call u js table))).1.countP
          Except.toBool,
        (Engine.execAll eng s
          ((createInterfaceArray ja records).map (Table.InsertOne.call u js table))).2) ∧
    (Engine.execAll eng s
        ((createInterfaceArray ja records).map (Table.InsertOne.call u js table))).1.length =
      (createInterfaceArray ja records).length ∧
    (Table.InsertMany u js ja eng table s records).1 ≤ (createInterfaceArray ja records).length ∧
    ((Table.InsertMany u js ja eng table s records).1 = (createInterfaceArray ja records).length ↔
      (Engine.execAll eng s
        ((createInterfaceArray ja records).map (Table.InsertOne.call u js table))).1.all
        Except.toBool = true) ∧
    ((Table.InsertMany u js ja eng table s records).1 < (createInterfaceArray ja records).length ↔
      (Engine.execAll eng s
        ((createInterfaceArray ja records).map (Table.InsertOne.call u js table))).1.any
        (fun r => !r.toBool) = true) ∧
    Table.UpdateMany u js ja eng table s pk records =
      ((Engine.execAll eng s
          ((createInterfaceArray ja records).map (Table.UpdateOne.call u js table pk))).1.countP
          Except.toBool,
        (Engine.execAll eng s
          ((createInterfaceArray ja records).map (Table.UpdateOne.call u js table pk))).2) ∧
    (Table.UpdateMany u js ja eng table s pk records).1 ≤
      (createInterfaceArray ja records).length ∧
    ((Table.UpdateMany u js ja eng table s pk records).1 =
        (createInterfaceArray ja records).length ↔
      (Engine.execAll eng s
        ((createInterfaceArray ja records).map (Table.UpdateOne.call u js table pk))).1.all
        Except.toBool = true) ∧
    ((Table.UpdateMany u js ja eng table s pk records).1 <
        (createInterfaceArray ja records).length ↔
      (Engine.execAll eng s
        ((createInterfaceArray ja records).map (Table.UpdateOne.call u js table pk))).1.any
        (fun r => !r.toBool) = true) := by
  have hi := execAll_length eng
    ((createInterfaceArray ja records).map (Table.InsertOne.call u js table)) s
  have hu := execAll_length eng
    ((createInterfaceArray ja records).map (Table.UpdateOne.call u js table pk)) s
  rw [List.length_map] at hi hu
  rw [insertMany_eq, updateMany_eq]
  refine ⟨rfl, hi, ?_, ?_, ?_, rfl, ?_, ?_, ?_⟩
  · rw [← hi]; exact List.countP_le_length _
  · show List.countP _ _ = _ ↔ _
    rw [← hi, List.countP_eq_length, List.all_eq_true]
  · show List.countP _ _ < _ ↔ _
    rw [← hi]; exact countP_lt_length_iff_any _ _
  · rw [← hu]; exact List.countP_le_length _
  · show List.countP _ _ = _ ↔ _
    rw [← hu, List.countP_eq_length, List.all_eq_true]
  · show List.countP _ _ < _ ↔ _
    rw [← hu]; exact countP_lt_length_iff_any _ _

/-! ## Claims on the config store -/

theorem insert_text_ne_delete_text (cfg : KvConfig) :
    "insert into " ++ cfg.tableName ++ "(" ++ cfg.keyCol ++ "," ++ cfg.valueCol ++
        ") values(?,?)" ≠
      "delete from " ++ cfg.tableName ++ " where " ++ cfg.keyCol ++ "=?" := by
  intro h
  have hd := congrArg (fun t : String => t.data.head?) h
  simp [String.append_assoc, String.data_append] at hd

theorem kvExec_delete (cfg : KvConfig) (rows : KvRows) (key : String) :
    KvEngine.Exec cfg false rows
        ("delete from " ++ cfg.tableName ++ " where " ++ cfg.keyCol ++ "=?") [Value.text key] =
      (none, rows.filter (fun r => r.1 != key)) := by
  simp [KvEngine.Exec]

theorem kvExec_insert (cfg : KvConfig) (rows : KvRows) (key value : String) :
    KvEngine.Exec cfg false rows
        ("insert into " ++ cfg.tableName ++ "(" ++ cfg.keyCol ++ "," ++ cfg.valueCol ++
          ") values(?,?)") [Value.text key, Value.text value] =
      if rows.any (fun r => r.1 == key) then (some "duplicate entry for primary key", rows)
      else (none, rows ++ [(key, value)]) := by
  unfold KvEngine.Exec
  rw [if_neg (by decide), if_neg (insert_text_ne_delete_text cfg), if_pos rfl]

theorem kvExec_fault (cfg : KvConfig) (rows : KvRows) (query : String) (args : List Value) :
    KvEngine.Exec cfg true rows query args = (some "driver: bad connection", rows) := by
  simp [KvEngine.Exec]

theorem kvGet_eq (cfg : KvConfig) (rows : KvRows) (key : String) :
    KvConfig.Get cfg false rows key =
      Except.ok (((rows.filter (fun r => r.1 == key)).map Prod.snd).headD "") := by
  unfold KvConfig.Get KvEngine.Query
  simp only [Bool.false_eq_true, if_false, if_true]
  cases (rows.filter (fun r => r.1 == key)).map Prod.snd <;> rfl

theorem kvSet_cases (cfg : KvConfig) (faultRemove faultInsert : Bool) (rows : KvRows)
    (key value : String)
    (h : (KvConfig.Set cfg faultRemove faultInsert rows key value).1 = none) :
    ∃ base : KvRows, base.any (fun r => r.1 == key) = false ∧
      base.filter (fun r => r.1 != key) = rows.filter (fun r => r.1 != key) ∧
      (∀ r ∈ base, r ∈ rows) ∧
      (KvConfig.Set cfg faultRemove faultInsert rows key value).2 = base ++ [(key, value)] := by
  unfold KvConfig.Set KvConfig.Remove at h ⊢
  cases faultInsert with
  | true => simp [kvExec_fault] at h
  | false =>
    cases faultRemove with
    | true =>
      simp only [kvExec_fault, kvExec_insert] at h ⊢
      by_cases hany : rows.any (fun r => r.1 == key) = true
      · simp [hany] at h
      · simp only [Bool.not_eq_true] at hany
        refine ⟨rows, hany, rfl, fun r hr => hr, ?_⟩
        simp [hany]
    | false =>
      simp only [kvExec_delete, kvExec_insert] at h ⊢
      have hany : (rows.filter (fun r => r.1 != key)).any (fun r => r.1 == key) = false := by
        rw [List.any_eq_false]
        intro r hr
        have := (List.mem_filter.mp hr).2
        simpa using this
      refine ⟨rows.filter (fun r => r.1 != key), hany, ?_, ?_, ?_⟩
      · rw [List.filter_filter]; simp
      · intro r hr; exact (List.mem_filter.mp hr).1
      · simp [hany]

theorem filter_key_eq_nil_of_any_false (base : KvRows) (key : String)
    (h : base.any (fun r => r.1 == key) = false) :
    base.filter (fun r => r.1 == key) = [] := by
  rw [List.filter_eq_nil_iff]
  intro r hr
  have := (List.any_eq_false.mp h) r hr
  simpa using this

/-- C14: on the model of the config table, whenever `Set(k, v)` returns without error the
table holds exactly one row of key `k`, that row has value `v`, the rows of other keys are
the ones there were before, and `Get(k)` on the new table, its query being run, returns `v`.
This does not depend on `k` having had a row, nor on the delete having been run; and a table
whose keys are pairwise distinct keeps them so. -/
theorem set_leaves_one_row_and_get_returns_it (cfg : KvConfig) (faultRemove faultInsert : Bool)
    (rows : KvRows) (k v : String)
    (h : (KvConfig.Set cfg faultRemove faultInsert rows k v).1 = none) :
    (KvConfig.Set cfg faultRemove faultInsert rows k v).2.filter (fun r => r.1 == k) =
      [(k, v)] ∧
    (KvConfig.Set cfg faultRemove faultInsert rows k v).2.filter (fun r => r.1 != k) =
      rows.filter (fun r => r.1 != k) ∧
    KvConfig.Get cfg false (KvConfig.Set cfg faultRemove faultInsert rows k v).2 k =
      Except.ok v ∧
    ((rows.map Prod.fst).Nodup →
      ((KvConfig.Set cfg faultRemove faultInsert rows k v).2.map Prod.fst).Nodup) := by
  obtain ⟨base, hany, hother, hsub, hrows⟩ := kvSet_cases cfg faultRemove faultInsert rows k v h
  have hnil := filter_key_eq_nil_of_any_false base k hany
  have hone : (base ++ [(k, v)]).filter (fun r => r.1 == k) = [(k, v)] := by
    rw [List.filter_append, hnil]; simp
  rw [hrows]
  refine ⟨hone, ?_, ?_, ?_⟩
  · rw [List.filter_append, hother]; simp
  · rw [kvGet_eq, hone]; rfl
  · intro hnodup
    have hbase : (base.map Prod.fst).Nodup := by
      have hb : base = rows.filter (fun r => r.1 != k) := by
        have h1 : base.filter (fun r => r.1 != k) = base := by
          rw [List.filter_eq_self]
          intro r hr
          have := (List.any_eq_false.mp hany) r hr
          simpa using this
        rw [← h1, hother]
      rw [hb]
      exact (List.Nodup.sublist (List.Sublist.map _ (List.filter_sublist _)) hnodup)
    rw [List.map_append, List.nodup_append]
    refine ⟨hbase, by simp, ?_⟩
    intro a ha hb
    simp only [List.map_cons, List.map_nil, List.mem_singleton] at hb
    subst hb
    obtain ⟨r, hr, hra⟩ := List.mem_map.mp ha
    have := (List.any_eq_false.mp hany) r hr
    simp [hra] at this

/-- On the table with the rows `a` = 1 and `b` = 2, `Set(a, 9)` returns without error. -/
theorem set_leaves_one_row_witness :
    (KvConfig.Set (UseConfig "config") false false [("a", "1"), ("b", "2")] "a" "9").1 = none ∧
    (KvConfig.Set (UseConfig "config") false false [("a", "1"), ("b", "2")] "a" "9").2 =
      [("b", "2"), ("a", "9")] ∧
    KvConfig.Get (UseConfig "config") false
      (KvConfig.Set (UseConfig "config") false false [("a", "1"), ("b", "2")] "a" "9").2 "a" =
      Except.ok "9" :=
  ⟨by decide, by decide,
    (set_leaves_one_row_and_get_returns_it (UseConfig "config") false false
      [("a", "1"), ("b", "2")] "a" "9" (by decide)).2.2.1⟩

/-- C15: for a key that has no row, `Get`, its query being run, returns the empty text and
no error, which is also what it returns on a table whose row of that key holds the empty
text. -/
theorem get_absent_key_is_empty_text (cfg : KvConfig) (rows rows₂ : KvRows) (key : String)
    (habsent : ∀ r ∈ rows, r.1 ≠ key)
    (hstored : rows₂.filter (fun r => r.1 == key) = [(key, "")]) :
    KvConfig.Get cfg false rows key = Except.ok "" ∧
    KvConfig.Get cfg false rows₂ key = Except.ok "" := by
  have hnil : rows.filter (fun r => r.1 == key) = [] := by
    rw [List.filter_eq_nil_iff]
    intro r hr
    simpa using habsent r hr
  rw [kvGet_eq, kvGet_eq, hnil, hstored]
  exact ⟨rfl, rfl⟩

/-- The key `b` has no row in the table with the single row `a` = 1, and it holds the empty
text in the table with the rows `a` = 1 and `b` = empty. -/
theorem get_absent_key_witness :
    KvConfig.Get (UseConfig "config") false [("a", "1")] "b" = Except.ok "" ∧
    KvConfig.Get (UseConfig "config") false [("a", "1"), ("b", "")] "b" = Except.ok "" :=
  get_absent_key_is_empty_text (UseConfig "config") [("a", "1")] [("a", "1"), ("b", "")] "b"
    (by decide) (by decide)

/-! ## Claims on the result materializer -/

theorem select_finish_query_error {δ : Type} (str : List Nat → String) (codec : Codec δ)
    (err : String) :
    Table.Select.finish str codec (Except.error err) = Except.error err := rfl

theorem select_finish_columns_error {δ : Type} (str : List Nat → String) (codec : Codec δ)
    (err : String) (scans : List ScanOutcome) (iter : Option String) :
    Table.Select.finish str codec (Except.ok ⟨Except.error err, scans, iter⟩) =
      Except.error err :=
  rfl

theorem select_finish_marshal_error {δ : Type} (str : List Nat → String) (codec : Codec δ)
    (columns : List String) (scans : List ScanOutcome) (iter : Option String) (err : String)
    (h : codec.marshal (Table.Select.tableData str columns scans) = Except.error err) :
    Table.Select.finish str codec (Except.ok ⟨Except.ok columns, scans, iter⟩) =
      Except.error err := by
  simp [Table.Select.finish, h]

theorem select_finish_unmarshal {δ : Type} (str : List Nat → String) (codec : Codec δ)
    (columns : List String) (scans : List ScanOutcome) (iter : Option String)
    (jsonData : String)
    (h : codec.marshal (Table.Select.tableData str columns scans) = Except.ok jsonData) :
    Table.Select.finish str codec (Except.ok ⟨Except.ok columns, scans, iter⟩) =
      codec.unmarshal jsonData := by
  simp [Table.Select.finish, h]

theorem select_finish_ignores_iteration_error {δ : Type} (str : List Nat → String)
    (codec : Codec δ) (columns : Except String (List String)) (scans : List ScanOutcome)
    (iter : Option String) :
    Table.Select.finish str codec (Except.ok ⟨columns, scans, iter⟩) =
      Table.Select.finish str codec (Except.ok ⟨columns, scans, none⟩) := rfl

theorem rowStep_ignores_scan_error (str : List Nat → String) (columns : List String)
    (st : List Value × List Mapping) (written : List (Option Value)) (err : Option String) :
    Table.Select.rowStep str columns st ⟨written, err⟩ =
      Table.Select.rowStep str columns st ⟨written, none⟩ := rfl

theorem tableData_ignores_scan_errors (str : List Nat → String) (columns : List String)
    (scans : List ScanOutcome) :
    Table.Select.tableData str columns scans =
      Table.Select.tableData str columns
        (scans.map (fun sc => { written := sc.written, err := none })) := by
  unfold Table.Select.tableData
  generalize (List.replicate columns.length Value.null, ([] : List Mapping)) = st
  induction scans generalizing st with
  | nil => rfl
  | cons sc rest ih =>
    simp only [List.map_cons, List.foldl_cons]
    rw [ih]
    rfl

/-- C16, at a result set with the column `id` whose reading fails after the first row: the
scan of the row 1 succeeds, then `rows.Next()` returns false on a lost connection and
`rows.Err()` holds that error. `Select` does not return it. It hands the one row it has read
to the document round-trip and returns the outcome of that, as it does for a result set that
ends after the row 1, so that the destination is populated when the round-trip succeeds. -/
theorem select_drops_iteration_error {δ : Type} (u : UnicodeTables) (js : Json)
    (str : List Nat → String) (codec : Codec δ) (table : Table) (param : Record) :
    Table.Select.finish str codec
        (Except.ok ⟨Except.ok ["id"], [ScanOutcome.ofRow [Value.int 1]],
          some "driver: bad connection"⟩) =
      (match codec.marshal [[("id", Value.int 1)]] with
        | Except.error err => Except.error err
        | Except.ok jsonData => codec.unmarshal jsonData) ∧
    Table.Select.finish str codec
        (Except.ok ⟨Except.ok ["id"], [ScanOutcome.ofRow [Value.int 1]],
          some "driver: bad connection"⟩) =
      Table.Select.finish str codec
        (Except.ok ⟨Except.ok ["id"], [ScanOutcome.ofRow [Value.int 1]], none⟩) ∧
    (Table.Select u js str codec
        ({ exec := fun s _ => (Except.ok 0, s)
           query := fun s _ =>
            (Except.ok ⟨Except.ok ["id"], [ScanOutcome.ofRow [Value.int 1]],
              some "driver: bad connection"⟩, s) } : Engine Unit)
        table () param).1 =
      (match codec.marshal [[("id", Value.int 1)]] with
        | Except.error err => Except.error err
        | Except.ok jsonData => codec.unmarshal jsonData) :=
  ⟨rfl, rfl, rfl⟩

theorem scan_map_some : ∀ (old row : List Value), old.length = row.length →
    Rows.Scan old (row.map some) = row := by
  intro old
  induction old with
  | nil =>
    intro row h
    cases row with
    | nil => rfl
    | cons r rs => simp at h
  | cons o os ih =>
    intro row h
    cases row with
    | nil => simp at h
    | cons r rs =>
      simp only [List.length_cons, Nat.add_right_cancel_iff] at h
      simp [Rows.Scan, ih rs h]

theorem foldl_rowStep_ofRow (str : List Nat → String) (columns : List String)
    (data : List (List Value)) :
    ∀ (values : List Value) (acc : List Mapping), values.length = columns.length →
      (∀ row ∈ data, row.length = columns.length) →
      ((data.map ScanOutcome.ofRow).foldl (Table.Select.rowStep str columns) (values, acc)).2 =
        acc ++ data.map (Table.Select.entry str columns) := by
  induction data with
  | nil => intro values acc _ _; simp
  | cons row rest ih =>
    intro values acc hlen hrows
    have hrow : row.length = columns.length := hrows row (List.mem_cons_self _ _)
    have hstep : Table.Select.rowStep str columns (values, acc) (ScanOutcome.ofRow row) =
        (row, acc ++ [Table.Select.entry str columns row]) := by
      simp [Table.Select.rowStep, ScanOutcome.ofRow, scan_map_some values row (hlen.trans hrow.symm)]
    simp only [List.map_cons, List.foldl_cons]
    rw [hstep, ih row _ hrow (fun r hr => hrows r (List.mem_cons_of_mem _ hr))]
    simp

theorem entryLoop_eq_foldl (str : List Nat → String) (values : List Value) :
    ∀ (cols : List String) (i : Nat) (entry : Mapping), i + cols.length ≤ values.length →
      Table.Select.entryLoop str values i cols entry =
        (cols.zip ((values.drop i).map (Table.Select.coerce str))).foldl
          (fun (e : Mapping) (p : String × Value) => e.assign p.1 p.2) entry := by
  intro cols
  induction cols with
  | nil => intro i entry _; simp [Table.Select.entryLoop]
  | cons col rest ih =>
    intro i entry h
    simp only [List.length_cons] at h
    have hi : i < values.length := by omega
    have hd : (values.drop i).map (Table.Select.coerce str) =
        Table.Select.coerce str values[i] ::
          (values.drop (i + 1)).map (Table.Select.coerce str) := by
      rw [List.drop_eq_getElem_cons hi]; rfl
    rw [Table.Select.entryLoop, ih (i + 1) _ (by omega), hd,
      List.getD_eq_getElem values Value.null hi]
    rfl

theorem entry_eq_foldl (str : List Nat → String) (columns : List String) (row : List Value)
    (h : row.length = columns.length) :
    Table.Select.entry str columns row =
      (columns.zip (row.map (Table.Select.coerce str))).foldl
        (fun (e : Mapping) (p : String × Value) => e.assign p.1 p.2) [] := by
  unfold Table.Select.entry
  rw [entryLoop_eq_foldl str row columns 0 [] (by omega)]
  simp

theorem lookup_cons_ite (a k : String) (b : Value) (es : Mapping) :
    List.lookup a ((k, b) :: es) = if a = k then some b else List.lookup a es := by
  simp only [List.lookup_cons]
  split <;> simp_all

theorem assign_of_not_mem (entry : Mapping) (col : String) (v : Value)
    (h : col ∉ entry.map Prod.fst) : entry.assign col v = entry ++ [(col, v)] := by
  unfold Mapping.assign
  have : entry.any (fun kv => kv.1 == col) = false := by
    rw [List.any_eq_false]
    intro kv hkv hc
    exact h (List.mem_map.mpr ⟨kv, hkv, by simpa using hc⟩)
  simp [this]

theorem assign_of_mem (entry : Mapping) (col : String) (v : Value)
    (h : col ∈ entry.map Prod.fst) :
    entry.assign col v = entry.map (fun kv => if kv.1 = col then (col, v) else kv) := by
  unfold Mapping.assign
  have hany : entry.any (fun kv => kv.1 == col) = true := by
    rw [List.any_eq_true]
    obtain ⟨kv, hkv, hc⟩ := List.mem_map.mp h
    exact ⟨kv, hkv, by simpa using hc⟩
  rw [if_pos hany]

theorem keys_assign (entry : Mapping) (col : String) (v : Value) :
    (entry.assign col v).map Prod.fst =
      if col ∈ entry.map Prod.fst then entry.map Prod.fst else entry.map Prod.fst ++ [col] := by
  by_cases h : col ∈ entry.map Prod.fst
  · rw [if_pos h, assign_of_mem entry col v h, List.map_map]
    apply List.map_congr_left
    intro kv _
    by_cases hk : kv.1 = col <;> simp [hk]
  · rw [if_neg h, assign_of_not_mem entry col v h]
    simp

theorem lookup_replace_ne (entry : Mapping) (col c : String) (v : Value) (hc : c ≠ col) :
    (entry.map (fun kv => if kv.1 = col then (col, v) else kv)).lookup c = entry.lookup c := by
  induction entry with
  | nil => rfl
  | cons kv rest ih =>
    obtain ⟨k, b⟩ := kv
    by_cases hk : k = col
    · subst hk
      simp only [List.map_cons, if_true, lookup_cons_ite, if_neg hc, ih]
    · simp only [List.map_cons, hk, if_false, lookup_cons_ite, ih]

theorem lookup_replace_eq (entry : Mapping) (col : String) (v : Value)
    (h : col ∈ entry.map Prod.fst) :
    (entry.map (fun kv => if kv.1 = col then (col, v) else kv)).lookup col = some v := by
  induction entry with
  | nil => simp at h
  | cons kv rest ih =>
    obtain ⟨k, b⟩ := kv
    by_cases hk : k = col
    · subst hk
      simp only [List.map_cons, if_true, lookup_cons_ite]
    · have hrest : col ∈ rest.map Prod.fst := by
        rcases List.mem_map.mp h with ⟨kv, hkv, hc⟩
        rcases List.mem_cons.mp hkv with hkv | hkv
        · subst hkv; exact absurd hc hk
        · exact List.mem_map.mpr ⟨kv, hkv, hc⟩
      have hne : ¬ col = k := fun h => hk h.symm
      simp only [List.map_cons, hk, if_false, lookup_cons_ite, if_neg hne, ih hrest]

theorem lookup_assign (entry : Mapping) (col c : String) (v : Value) :
    (entry.assign col v).lookup c = if c = col then some v else entry.lookup c := by
  by_cases h : col ∈ entry.map Prod.fst
  · rw [assign_of_mem entry col v h]
    by_cases hc : c = col
    · subst hc; rw [if_pos rfl, lookup_replace_eq entry c v h]
    · rw [if_neg hc, lookup_replace_ne entry col c v hc]
  · rw [assign_of_not_mem entry col v h, List.lookup_append]
    by_cases hc : c = col
    · subst hc
      have hnone : entry.lookup c = none := by
        rw [List.lookup_eq_none_iff]
        intro p hp
        simp only [bne_iff_ne, ne_eq]
        intro hcp
        exact h (List.mem_map.mpr ⟨p, hp, hcp.symm⟩)
      rw [hnone, if_pos rfl, lookup_cons_ite, if_pos rfl]
      rfl
    · rw [if_neg hc, lookup_cons_ite, if_neg hc]
      cases entry.lookup c <;> rfl

theorem keys_foldl_assign (l : List (String × Value)) :
    ∀ e : Mapping, (e.map Prod.fst).Nodup →
      ((l.foldl (fun (e : Mapping) (p : String × Value) => e.assign p.1 p.2) e).map
          Prod.fst).Nodup ∧
      ∀ c : String,
        c ∈ (l.foldl (fun (e : Mapping) (p : String × Value) => e.assign p.1 p.2) e).map
            Prod.fst ↔
          c ∈ e.map Prod.fst ∨ c ∈ l.map Prod.fst := by
  induction l with
  | nil => intro e he; simp [he]
  | cons p rest ih =>
    intro e he
    have hkeys := keys_assign e p.1 p.2
    have hnodup : ((e.assign p.1 p.2).map Prod.fst).Nodup := by
      rw [hkeys]
      split
      · exact he
      · rename_i hp
        rw [List.nodup_append]
        refine ⟨he, by simp, ?_⟩
        intro a ha hb
        simp only [List.mem_singleton] at hb
        subst hb
        exact hp ha
    obtain ⟨h1, h2⟩ := ih (e.assign p.1 p.2) hnodup
    refine ⟨h1, ?_⟩
    intro c
    rw [List.foldl_cons, h2 c, hkeys]
    split
    · rename_i hp
      simp only [List.map_cons, List.mem_cons]
      constructor
      · rintro (h | h)
        · exact Or.inl h
        · exact Or.inr (Or.inr h)
      · rintro (h | h | h)
        · exact Or.inl h
        · exact Or.inl (h ▸ hp)
        · exact Or.inr h
    · simp only [List.map_cons, List.mem_cons, List.mem_append, List.mem_singleton]
      tauto

theorem lookup_foldl_assign (l : List (String × Value)) :
    ∀ (e : Mapping) (c : String),
      (l.foldl (fun (e : Mapping) (p : String × Value) => e.assign p.1 p.2) e).lookup c =
        (l.reverse.lookup c).or (e.lookup c) := by
  induction l with
  | nil => intro e c; simp
  | cons p rest ih =>
    intro e c
    obtain ⟨k, b⟩ := p
    rw [List.foldl_cons, ih, lookup_assign, List.reverse_cons, List.lookup_append,
      lookup_cons_ite]
    by_cases hc : c = k
    · simp only [hc, if_true]
      cases rest.reverse.lookup k <;> rfl
    · simp only [hc, if_false, List.lookup_nil]
      cases rest.reverse.lookup c <;> rfl

theorem foldl_assign_of_nodup (l : List (String × Value)) :
    ∀ e : Mapping, (∀ p ∈ l, p.1 ∉ e.map Prod.fst) → (l.map Prod.fst).Nodup →
      l.foldl (fun (e : Mapping) (p : String × Value) => e.assign p.1 p.2) e = e ++ l := by
  induction l with
  | nil => intro e _ _; simp
  | cons p rest ih =>
    intro e hnew hnodup
    rw [List.foldl_cons, assign_of_not_mem e p.1 p.2 (hnew p (List.mem_cons_self _ _))]
    simp only [List.map_cons, List.nodup_cons] at hnodup
    rw [ih (e ++ [(p.1, p.2)]) ?_ hnodup.2]
    · simp
    · intro q hq
      simp only [List.map_append, List.map_cons, List.map_nil, List.mem_append,
        List.mem_singleton, not_or]
      refine ⟨hnew q (List.mem_cons_of_mem _ hq), ?_⟩
      intro hqp
      exact hnodup.1 (hqp ▸ List.mem_map_of_mem Prod.fst hq)

theorem tableData_ofRows (str : List Nat → String) (columns : List String)
    (data : List (List Value)) (h : ∀ row ∈ data, row.length = columns.length) :
    Table.Select.tableData str columns (data.map ScanOutcome.ofRow) =
      data.map (Table.Select.entry str columns) := by
  unfold Table.Select.tableData
  rw [foldl_rowStep_ofRow str columns data _ [] (by simp) h]
  simp

/-- C17: for a result set of r rows over the reported columns, every scan succeeding,
`Select` builds r mappings in the order of the rows. The mapping of a row has the reported
column names as its keys, each once; under a column name it holds the value of the row in
that column (the last such column if the name is reported more than once), a byte sequence
being replaced by its text and any other value being kept; when the column names are
pairwise distinct it is the list of the columns paired with those values. -/
theorem select_builds_one_mapping_per_row (str : List Nat → String) (columns : List String)
    (data : List (List Value)) (h : ∀ row ∈ data, row.length = columns.length) :
    (Table.Select.tableData str columns (data.map ScanOutcome.ofRow)).length = data.length ∧
    (∀ j : Nat, (Table.Select.tableData str columns (data.map ScanOutcome.ofRow))[j]? =
      data[j]?.map (Table.Select.entry str columns)) ∧
    (∀ row ∈ data,
      ((Table.Select.entry str columns row).map Prod.fst).Nodup ∧
      (∀ c : String, c ∈ (Table.Select.entry str columns row).map Prod.fst ↔ c ∈ columns) ∧
      (∀ c : String, (Table.Select.entry str columns row).lookup c =
        ((columns.zip (row.map (Table.Select.coerce str))).reverse).lookup c) ∧
      (columns.Nodup →
        Table.Select.entry str columns row =
          columns.zip (row.map (Table.Select.coerce str)))) ∧
    (∀ b : List Nat, Table.Select.coerce str (Value.bytes b) = Value.text (str b)) ∧
    Table.Select.coerce str Value.null = Value.null ∧
    (∀ t : String, Table.Select.coerce str (Value.text t) = Value.text t) ∧
    (∀ n : Int, Table.Select.coerce str (Value.int n) = Value.int n) ∧
    (∀ x : Nat, Table.Select.coerce str (Value.float x) = Value.float x) ∧
    (∀ b : Bool, Table.Select.coerce str (Value.bool b) = Value.bool b) := by
  refine ⟨?_, ?_, ?_, fun _ => rfl, rfl, fun _ => rfl, fun _ => rfl, fun _ => rfl,
    fun _ => rfl⟩
  · rw [tableData_ofRows str columns data h]; simp
  · intro j
    rw [tableData_ofRows str columns data h]; simp
  · intro row hrow
    have hlen := h row hrow
    have hzip : (columns.zip (row.map (Table.Select.coerce str))).map Prod.fst = columns :=
      List.map_fst_zip _ _ (by simp [hlen])
    rw [entry_eq_foldl str columns row hlen]
    obtain ⟨h1, h2⟩ := keys_foldl_assign (columns.zip (row.map (Table.Select.coerce str))) []
      (by simp)
    refine ⟨h1, ?_, ?_, ?_⟩
    · intro c
      rw [h2 c, hzip]; simp
    · intro c
      rw [lookup_foldl_assign]
      cases ((columns.zip (row.map (Table.Select.coerce str))).reverse).lookup c <;> rfl
    · intro hnodup
      rw [foldl_assign_of_nodup _ [] (by simp) (by rw [hzip]; exact hnodup)]
      simp

/-- The result set with the columns `id`, `name` and the rows (1, bytes of `ab`) and
(2, `c`): its rows have two values each, and `Select` builds the two mappings. -/
theorem select_builds_one_mapping_per_row_witness :
    (∀ row ∈ [[Value.int 1, Value.bytes [97, 98]], [Value.int 2, Value.text "c"]],
      row.length = ["id", "name"].length) ∧
    (Table.Select.tableData (fun b => String.mk (b.map Char.ofNat)) ["id", "name"]
      ([[Value.int 1, Value.bytes [97, 98]], [Value.int 2, Value.text "c"]].map
        ScanOutcome.ofRow)).length = 2 ∧
    Table.Select.tableData (fun b => String.mk (b.map Char.ofNat)) ["id", "name"]
      ([[Value.int 1, Value.bytes [97, 98]], [Value.int 2, Value.text "c"]].map
        ScanOutcome.ofRow) =
      [[("id", Value.int 1), ("name", Value.text "ab")],
        [("id", Value.int 2), ("name", Value.text "c")]] :=
  ⟨by decide,
    (select_builds_one_mapping_per_row (fun b => String.mk (b.map Char.ofNat)) ["id", "name"]
      [[Value.int 1, Value.bytes [97, 98]], [Value.int 2, Value.text "c"]] (by decide)).1,
    by decide⟩

end Edb
